import Mathlib

/-!
Verification of the distributed cache server (segmented LRU cache,
cache manager, RESP dispatcher, WAL, memtable, SSTable, LSM engine,
Raft node) against its natural-language specification.

The C++ sources are shallowly embedded: byte strings become `List Nat`
(one `Nat` per octet), fixed-width machine integers become `Nat` with
explicit `% 2 ^ w` where overflow matters, pointer-linked structures
become lists, and loops become structural recursions (with an explicit
fuel argument equal to the bound the C++ loop respects, so that every
definition evaluates by kernel reduction).
-/

set_option maxHeartbeats 4000000
set_option maxRecDepth 100000

namespace DCS

-- ═══════════════════════════════════════════════════════════════════
-- Basics: byte strings, ASCII, lexicographic comparison
-- ═══════════════════════════════════════════════════════════════════

/-- Keys, values and wire data are arbitrary octet sequences
(`std::string` in the source). -/
abbrev Str := List Nat

/-- Helper for writing concrete ASCII byte strings. -/
def ascii (s : String) : Str := s.data.map Char.toNat

/-- `std::string::compare`-style strict lexicographic byte order
(`a.compare(b) < 0`). -/
def strLt : Str → Str → Bool
  | [], [] => false
  | [], _ :: _ => true
  | _ :: _, [] => false
  | a :: as, b :: bs =>
    if a < b then true else if b < a then false else strLt as bs

-- ═══════════════════════════════════════════════════════════════════
-- C1 of the component table: single-shard LRU cache
-- (src/include/cache/lru_cache.h, src/include/cache/node.h)
-- ═══════════════════════════════════════════════════════════════════

/-- One node of the intrusive doubly-linked list (`dcs::cache::Node`).
`last_access` is carried by the source but never consulted by any
operation (eviction picks the list tail), so it is omitted. -/
structure CacheEntry where
  key : Str
  value : Str
  dirty : Bool
deriving Repr, DecidableEq

/-- Result of a cache operation (`dcs::cache::CacheResult`). -/
structure CacheResult where
  hit : Bool
  value : Str
deriving Repr, DecidableEq

def CacheResult.Hit (v : Str) : CacheResult := ⟨true, v⟩

def CacheResult.Miss : CacheResult := ⟨false, []⟩

/-- A single LRU shard (`dcs::cache::LRUCache`): the doubly-linked
list, most-recently-used first.  The `unordered_map` is kept in sync
with the list by the source (map size == list length, every mapped
pointer references a list node), so the list alone represents the
state; map lookups become searches for the unique node with the key. -/
structure LRUCache where
  capacity : Nat
  entries : List CacheEntry
deriving Repr, DecidableEq

instance : Inhabited LRUCache := ⟨⟨0, []⟩⟩

/-- Map lookup plus `detach`: the unique node carrying `k` (if any)
and the list with that node removed, order preserved. -/
def extractEntry : List CacheEntry → Str → Option (CacheEntry × List CacheEntry)
  | [], _ => none
  | e :: es, k =>
    if e.key = k then some (e, es)
    else
      match extractEntry es k with
      | none => none
      | some (f, rest) => some (f, e :: rest)

/-- `DoublyLinkedList::pop_back`: remove and return the tail (LRU)
node; `none` when the list is empty. -/
def popBack (es : List CacheEntry) : Option (CacheEntry × List CacheEntry) :=
  match es.getLast? with
  | none => none
  | some l => some (l, es.dropLast)

/-- The `while (map_.size() >= capacity_) evict_lru();` loop of
`LRUCache::put`.  Fuel is the list length: each iteration of the C++
loop removes one node, and when `pop_back` returns null (empty list)
the C++ loop body makes no progress, so the fuel bound is exact for
every state the loop terminates on.  Returns (remaining, evicted in
eviction order). -/
def evictLoop : Nat → Nat → List CacheEntry → List CacheEntry × List CacheEntry
  | 0, _, es => (es, [])
  | fuel + 1, cap, es =>
    if cap ≤ es.length then
      match popBack es with
      | none => (es, [])
      | some (l, rest) =>
        let r := evictLoop fuel cap rest
        (r.1, l :: r.2)
    else (es, [])

/-- `LRUCache::get`: on hit move the node to the MRU position and
return its value; on miss leave the cache unchanged. -/
def LRUCache.get (c : LRUCache) (k : Str) : CacheResult × LRUCache :=
  match extractEntry c.entries k with
  | none => (CacheResult.Miss, c)
  | some (e, rest) => (CacheResult.Hit e.value, { c with entries := e :: rest })

/-- `LRUCache::put`: update in place (set dirty, move to front) when
the key exists; otherwise evict LRU nodes while `size ≥ capacity`,
then insert a fresh dirty node at the front.  Also returns the evicted
nodes (the source passes each to the eviction callback). -/
def LRUCache.put (c : LRUCache) (k v : Str) : LRUCache × List CacheEntry :=
  match extractEntry c.entries k with
  | some (_, rest) => ({ c with entries := ⟨k, v, true⟩ :: rest }, [])
  | none =>
    let r := evictLoop c.entries.length c.capacity c.entries
    ({ c with entries := ⟨k, v, true⟩ :: r.1 }, r.2)

/-- `LRUCache::del`: remove the node if present; returns whether it
existed (the removed node is passed to the eviction callback). -/
def LRUCache.del (c : LRUCache) (k : Str) : Bool × LRUCache :=
  match extractEntry c.entries k with
  | none => (false, c)
  | some (_, rest) => (true, { c with entries := rest })

/-- `LRUCache::exists`: membership without promotion. -/
def LRUCache.existsKey (c : LRUCache) (k : Str) : Bool :=
  (extractEntry c.entries k).isSome

/-- `LRUCache::clear_dirty`: clear the dirty flag of the node carrying
`k`, if present. -/
def clearDirtyIn : List CacheEntry → Str → List CacheEntry
  | [], _ => []
  | e :: es, k =>
    if e.key = k then { e with dirty := false } :: es else e :: clearDirtyIn es k

def LRUCache.clearDirty (c : LRUCache) (k : Str) : LRUCache :=
  { c with entries := clearDirtyIn c.entries k }

/-- `LRUCache::keys`. -/
def LRUCache.keysOf (c : LRUCache) : List Str := c.entries.map CacheEntry.key

/-- `LRUCache::size`. -/
def LRUCache.size (c : LRUCache) : Nat := c.entries.length

-- ═══════════════════════════════════════════════════════════════════
-- C2 of the component table: segmented cache
-- (src/include/cache/segmented_cache.h)
-- ═══════════════════════════════════════════════════════════════════

/-- `N_SEGMENTS` (fixed shard count). -/
def N_SEGMENTS : Nat := 32

/-- `dcs::cache::SegmentedCache`: 32 independent LRU shards.  The
shard of a key is `hash(key) % N_SEGMENTS`; `std::hash<std::string>`
is implementation defined, so the hash function is a parameter of
every operation. -/
structure SegmentedCache where
  shards : List LRUCache
deriving Repr, DecidableEq

/-- `SegmentedCache::segment_for`. -/
def segIndex (hash : Str → Nat) (k : Str) : Nat := hash k % N_SEGMENTS

def shardFor (hash : Str → Nat) (sc : SegmentedCache) (k : Str) : LRUCache :=
  sc.shards.getD (segIndex hash k) default

def setShard (hash : Str → Nat) (sc : SegmentedCache) (k : Str) (c : LRUCache) :
    SegmentedCache :=
  ⟨sc.shards.set (segIndex hash k) c⟩

/-- `SegmentedCache::get`. -/
def SegmentedCache.get (hash : Str → Nat) (sc : SegmentedCache) (k : Str) :
    CacheResult × SegmentedCache :=
  let r := (shardFor hash sc k).get k
  (r.1, setShard hash sc k r.2)

/-- `SegmentedCache::put` (evicted nodes go to the eviction callback,
which stores dirty evictees to the backend; the backend state is not
tracked at this layer). -/
def SegmentedCache.put (hash : Str → Nat) (sc : SegmentedCache) (k v : Str) :
    SegmentedCache :=
  setShard hash sc k ((shardFor hash sc k).put k v).1

/-- `SegmentedCache::del`. -/
def SegmentedCache.del (hash : Str → Nat) (sc : SegmentedCache) (k : Str) :
    Bool × SegmentedCache :=
  let r := (shardFor hash sc k).del k
  (r.1, setShard hash sc k r.2)

/-- `SegmentedCache::exists`. -/
def SegmentedCache.existsKey (hash : Str → Nat) (sc : SegmentedCache) (k : Str) : Bool :=
  (shardFor hash sc k).existsKey k

/-- `SegmentedCache::clear_dirty`. -/
def SegmentedCache.clearDirty (hash : Str → Nat) (sc : SegmentedCache) (k : Str) :
    SegmentedCache :=
  setShard hash sc k ((shardFor hash sc k).clearDirty k)

/-- `SegmentedCache::size`: sum over the shards. -/
def SegmentedCache.size (sc : SegmentedCache) : Nat :=
  (sc.shards.map LRUCache.size).sum

/-- `SegmentedCache::keys`: concatenation over the shards. -/
def SegmentedCache.keysOf (sc : SegmentedCache) : List Str :=
  (sc.shards.map LRUCache.keysOf).flatten

/-- `SegmentedCache::clear`: every shard evicts all of its nodes
(dirty evictees are persisted by the eviction callback). -/
def SegmentedCache.clear (sc : SegmentedCache) : SegmentedCache :=
  ⟨sc.shards.map (fun c => { c with entries := [] })⟩

-- ═══════════════════════════════════════════════════════════════════
-- C8 of the component table: cache manager
-- (src/include/sync/cache_manager.h, embedded from the source file)
-- ═══════════════════════════════════════════════════════════════════

/-- `persistence::LoadResult`. -/
structure LoadResult where
  found : Bool
  value : Str
deriving Repr, DecidableEq

def LoadResult.Hit (v : Str) : LoadResult := ⟨true, v⟩

def LoadResult.Miss : LoadResult := ⟨false, []⟩

/-- `dcs::sync::WriteMode`. -/
inductive WriteMode
  | writeThrough
  | writeBack
deriving Repr, DecidableEq

/-- `CacheManager::Stats` (atomic counters). -/
structure CMStats where
  cacheHits : Nat
  cacheMisses : Nat
  writeThroughCount : Nat
  writeBackCount : Nat
deriving Repr, DecidableEq

/-- Cache-manager state: configuration mode, the segmented cache and
the counters.  The storage backend is held through the abstract
`StorageBackend` interface, so its observable behaviour enters as
function parameters (`bLoad`, `bStore`); the server always constructs
the manager with a non-null backend, which is the case embedded here. -/
structure CMState where
  mode : WriteMode
  cache : SegmentedCache
  stats : CMStats
deriving Repr, DecidableEq

/-- `CacheManager::get` — the cache-aside read path. -/
def cmGet (hash : Str → Nat) (bLoad : Str → LoadResult) (s : CMState) (k : Str) :
    CacheResult × CMState :=
  let r := SegmentedCache.get hash s.cache k
  if r.1.hit then
    (r.1, { s with cache := r.2,
                   stats := { s.stats with cacheHits := s.stats.cacheHits + 1 } })
  else
    let s1 := { s with cache := r.2,
                       stats := { s.stats with cacheMisses := s.stats.cacheMisses + 1 } }
    let db := bLoad k
    if db.found then
      let c2 := SegmentedCache.put hash s1.cache k db.value
      let c3 := SegmentedCache.clearDirty hash c2 k
      (CacheResult.Hit db.value, { s1 with cache := c3 })
    else
      (CacheResult.Miss, s1)

/-- `CacheManager::put_write_through`. -/
def cmPutWriteThrough (hash : Str → Nat) (bStore : Str → Str → Bool) (s : CMState)
    (k v : Str) : Bool × CMState :=
  let c1 := SegmentedCache.put hash s.cache k v
  if bStore k v then
    (true, { s with cache := SegmentedCache.clearDirty hash c1 k,
                    stats := { s.stats with
                               writeThroughCount := s.stats.writeThroughCount + 1 } })
  else
    (false, { s with cache := c1 })

/-- `CacheManager::put_write_back`. -/
def cmPutWriteBack (hash : Str → Nat) (s : CMState) (k v : Str) : Bool × CMState :=
  (true, { s with cache := SegmentedCache.put hash s.cache k v,
                  stats := { s.stats with
                             writeBackCount := s.stats.writeBackCount + 1 } })

/-- `CacheManager::put`. -/
def cmPut (hash : Str → Nat) (bStore : Str → Str → Bool) (s : CMState) (k v : Str) :
    Bool × CMState :=
  match s.mode with
  | .writeThrough => cmPutWriteThrough hash bStore s k v
  | .writeBack => cmPutWriteBack hash s k v

/-- `CacheManager::del`: deletes from cache and backend and returns
`true` unconditionally (the backend `remove` is issued but its state
is not tracked here). -/
def cmDel (hash : Str → Nat) (s : CMState) (k : Str) : Bool × CMState :=
  (true, { s with cache := (SegmentedCache.del hash s.cache k).2 })

/-- `CacheManager::exists`: consults only the in-memory cache. -/
def cmExists (hash : Str → Nat) (s : CMState) (k : Str) : Bool :=
  SegmentedCache.existsKey hash s.cache k

/-- `CacheManager::size`. -/
def cmSize (s : CMState) : Nat := s.cache.size

/-- `CacheManager::keys`. -/
def cmKeys (s : CMState) : List Str := s.cache.keysOf

/-- `CacheManager::flush_all`: clears the cache; the backend keeps its
durable state. -/
def cmFlushAll (s : CMState) : CMState := { s with cache := s.cache.clear }

/-- The manager state the server constructs from the default `Config`
(capacity 65536 over 32 shards, write-back mode). -/
def cmDefault : CMState :=
  { mode := .writeBack,
    cache := ⟨List.replicate N_SEGMENTS ⟨65536 / N_SEGMENTS, []⟩⟩,
    stats := ⟨0, 0, 0, 0⟩ }

-- ═══════════════════════════════════════════════════════════════════
-- C10 of the component table: RESP codec
-- (src/include/network/resp_parser.h)
-- ═══════════════════════════════════════════════════════════════════

/-- Decimal rendering (`std::to_string` for the non-negative values
the dispatcher emits).  The fuel `n + 1` bounds the digit count. -/
def natToDecGo : Nat → Nat → Str → Str
  | 0, _, acc => acc
  | fuel + 1, n, acc =>
    if n < 10 then (48 + n) :: acc
    else natToDecGo fuel (n / 10) ((48 + n % 10) :: acc)

def natToDec (n : Nat) : Str := natToDecGo (n + 1) n []

def CRLF : Str := [13, 10]

/-- `RESPParser::encode_simple_string`. -/
def encodeSimpleString (s : Str) : Str := 43 :: (s ++ CRLF)

/-- `RESPParser::encode_error`. -/
def encodeError (msg : Str) : Str := ascii "-ERR " ++ msg ++ CRLF

/-- `RESPParser::encode_integer` (its `int64_t` argument is a
non-negative count at every dispatcher call site). -/
def encodeInteger (n : Nat) : Str := 58 :: (natToDec n ++ CRLF)

/-- `RESPParser::encode_bulk_string`. -/
def encodeBulkString (s : Str) : Str :=
  36 :: (natToDec s.length ++ CRLF ++ s ++ CRLF)

/-- `RESPParser::encode_null`. -/
def encodeNull : Str := ascii "$-1\r\n"

/-- `RESPParser::encode_array`. -/
def encodeArray (items : List Str) : Str :=
  42 :: (natToDec items.length ++ CRLF ++ (items.map encodeBulkString).flatten)

-- ═══════════════════════════════════════════════════════════════════
-- RESP parsing (RESPParser::parse / parse_array / parse_inline)
-- ═══════════════════════════════════════════════════════════════════

/-- `isspace` in the C locale. -/
def isSpaceByte (c : Nat) : Bool := c = 32 || (9 ≤ c && c ≤ 13)

/-- The two ways `std::stoi` throws. -/
inductive StoiErr
  | invalidArgument
  | outOfRange
deriving Repr, DecidableEq

/-- `std::stoi`: skip leading whitespace, optional sign, at least one
digit (else `std::invalid_argument`); result outside `int` range is
`std::out_of_range`.  `Except.error` models the exception escaping. -/
def stoiCore (s : Str) : Except StoiErr Int :=
  let t := s.dropWhile isSpaceByte
  let p : Int × Str :=
    match t with
    | 43 :: r => (1, r)
    | 45 :: r => (-1, r)
    | _ => (1, t)
  let digits := p.2.takeWhile (fun c => decide (48 ≤ c ∧ c ≤ 57))
  if digits = [] then .error .invalidArgument
  else
    let v : Int := p.1 * (digits.foldl (fun a c => a * 10 + (c - 48)) 0 : Nat)
    if v < -(2 ^ 31) ∨ (2 ^ 31 - 1 : Int) < v then .error .outOfRange else .ok v

/-- `buf.find("\r\n", pos)` on the suffix starting at the scan point:
offset of the first CRLF. -/
def findCRLFIn : Str → Option Nat
  | [] => none
  | [_] => none
  | 13 :: 10 :: _ => some 0
  | _ :: rest => (findCRLFIn rest).map (· + 1)

/-- `buf.find("\r\n", pos)` (absolute index). -/
def strFindCRLF (s : Str) (pos : Nat) : Option Nat :=
  (findCRLFIn (s.drop pos)).map (· + pos)

/-- `buf.find('\n')`. -/
def findLF : Str → Option Nat
  | [] => none
  | 10 :: _ => some 0
  | _ :: rest => (findLF rest).map (· + 1)

/-- The element loop of `RESPParser::parse_array`.  Fuel is the parsed
element count.  `.ok ([], 0)` is the incomplete-buffer result (tokens
empty, `consumed` 0), exactly as in the source; `.error` models an
uncaught `std::stoi` exception. -/
def parseArrayLoop (buf : Str) : Nat → Nat → List Str → Except StoiErr (List Str × Nat)
  | 0, pos, acc => .ok (acc.reverse, pos)
  | i + 1, pos, acc =>
    if buf.length ≤ pos then .ok ([], 0)
    else if buf.getD pos 0 ≠ 36 then
      match strFindCRLF buf pos with
      | none => .ok ([], 0)
      | some nc =>
        parseArrayLoop buf i (nc + 2) (((buf.drop (pos + 1)).take (nc - pos - 1)) :: acc)
    else
      match strFindCRLF buf (pos + 1) with
      | none => .ok ([], 0)
      | some lenEnd =>
        match stoiCore ((buf.drop (pos + 1)).take (lenEnd - (pos + 1))) with
        | .error e => .error e
        | .ok len =>
          if len < 0 then parseArrayLoop buf i (lenEnd + 2) ([] :: acc)
          else
            let dataStart := lenEnd + 2
            if buf.length < dataStart + len.toNat + 2 then .ok ([], 0)
            else
              parseArrayLoop buf i (dataStart + len.toNat + 2)
                (((buf.drop dataStart).take len.toNat) :: acc)

/-- `RESPParser::parse_array`. -/
def parseArray (buf : Str) : Except StoiErr (List Str × Nat) :=
  match strFindCRLF buf 1 with
  | none => .ok ([], 0)
  | some crlf =>
    match stoiCore ((buf.drop 1).take (crlf - 1)) with
    | .error e => .error e
    | .ok count => parseArrayLoop buf count.toNat (crlf + 2) []

/-- The `istringstream >> token` whitespace tokenizer. -/
def tokenizeGo : Str → Str → List Str
  | [], cur => if cur = [] then [] else [cur.reverse]
  | c :: rest, cur =>
    if isSpaceByte c then
      if cur = [] then tokenizeGo rest [] else cur.reverse :: tokenizeGo rest []
    else tokenizeGo rest (c :: cur)

def tokenize (s : Str) : List Str := tokenizeGo s []

/-- `RESPParser::parse_inline`. -/
def parseInline (buf : Str) : List Str × Nat :=
  match strFindCRLF buf 0 with
  | some crlf => (tokenize (buf.take crlf), crlf + 2)
  | none =>
    match findLF buf with
    | some lf => (tokenize (buf.take lf), lf + 1)
    | none => (tokenize buf, buf.length)

/-- `RESPParser::parse`. -/
def respParse (buf : Str) : Except StoiErr (List Str × Nat) :=
  if buf = [] then .ok ([], 0)
  else if buf.getD 0 0 = 42 then parseArray buf
  else .ok (parseInline buf)

-- ═══════════════════════════════════════════════════════════════════
-- Command dispatcher (ClientHandler::execute, embedded source file)
-- ═══════════════════════════════════════════════════════════════════

/-- `std::toupper` in the C locale, bytewise. -/
def byteToUpper (c : Nat) : Nat := if 97 ≤ c ∧ c ≤ 122 then c - 32 else c

def strToUpper (s : Str) : Str := s.map byteToUpper

/-- `ClientHandler::Response`. -/
structure Response where
  data : Str
  closeConnection : Bool
deriving Repr, DecidableEq

/-- SET's inline-mode value join: tokens `[2..]` joined with single
spaces. -/
def joinSpace : List Str → Str
  | [] => []
  | [x] => x
  | x :: xs => x ++ 32 :: joinSpace xs

/-- The `DEL` loop: delete each argument key, counting the deletes
that report `true`. -/
def delLoop (hash : Str → Nat) : CMState → List Str → Nat × CMState
  | s, [] => (0, s)
  | s, k :: ks =>
    let r := cmDel hash s k
    let rest := delLoop hash r.2 ks
    (if r.1 then rest.1 + 1 else rest.1, rest.2)

/-- `ClientHandler::build_info`. -/
def buildInfo (s : CMState) : Str :=
  ascii "# Server\r\n" ++
  ascii "distributed_cache_version:1.0.0\r\n" ++
  ascii "write_mode:" ++
  (match s.mode with
   | .writeThrough => ascii "write-through"
   | .writeBack => ascii "write-back") ++ CRLF ++
  ascii "\r\n# Stats\r\n" ++
  ascii "cache_hits:" ++ natToDec s.stats.cacheHits ++ CRLF ++
  ascii "cache_misses:" ++ natToDec s.stats.cacheMisses ++ CRLF ++
  ascii "write_through_ops:" ++ natToDec s.stats.writeThroughCount ++ CRLF ++
  ascii "write_back_ops:" ++ natToDec s.stats.writeBackCount ++ CRLF ++
  ascii "\r\n# Keyspace\r\n" ++
  ascii "keys:" ++ natToDec (cmSize s) ++ CRLF

/-- The command dispatch of `ClientHandler::execute` (everything after
the empty-tokens check): `t0` is the command token, `args` the rest. -/
def executeCmd (hash : Str → Nat) (bLoad : Str → LoadResult) (bStore : Str → Str → Bool)
    (s : CMState) (t0 : Str) (args : List Str) : Response × CMState :=
    if strToUpper t0 = ascii "GET" then
      match args with
      | [] => (⟨encodeError (ascii "wrong number of arguments for 'GET'"), false⟩, s)
      | k :: _ =>
        let r := cmGet hash bLoad s k
        if r.1.hit then (⟨encodeBulkString r.1.value, false⟩, r.2)
        else (⟨encodeNull, false⟩, r.2)
    else if strToUpper t0 = ascii "SET" then
      match args with
      | k :: v0 :: vs =>
        let r := cmPut hash bStore s k (joinSpace (v0 :: vs))
        (⟨encodeSimpleString (ascii "OK"), false⟩, r.2)
      | _ => (⟨encodeError (ascii "wrong number of arguments for 'SET'"), false⟩, s)
    else if strToUpper t0 = ascii "DEL" then
      match args with
      | [] => (⟨encodeError (ascii "wrong number of arguments for 'DEL'"), false⟩, s)
      | _ :: _ =>
        let r := delLoop hash s args
        (⟨encodeInteger r.1, false⟩, r.2)
    else if strToUpper t0 = ascii "EXISTS" then
      match args with
      | [] => (⟨encodeError (ascii "wrong number of arguments for 'EXISTS'"), false⟩, s)
      | k :: _ => (⟨encodeInteger (if cmExists hash s k then 1 else 0), false⟩, s)
    else if strToUpper t0 = ascii "KEYS" then
      (⟨encodeArray (cmKeys s), false⟩, s)
    else if strToUpper t0 = ascii "DBSIZE" then
      (⟨encodeInteger (cmSize s), false⟩, s)
    else if strToUpper t0 = ascii "FLUSHALL" ∨ strToUpper t0 = ascii "FLUSHDB" then
      (⟨encodeSimpleString (ascii "OK"), false⟩, cmFlushAll s)
    else if strToUpper t0 = ascii "PING" then
      match args with
      | m :: _ => (⟨encodeBulkString m, false⟩, s)
      | [] => (⟨encodeSimpleString (ascii "PONG"), false⟩, s)
    else if strToUpper t0 = ascii "QUIT" then
      (⟨encodeSimpleString (ascii "OK"), true⟩, s)
    else if strToUpper t0 = ascii "INFO" then
      (⟨encodeBulkString (buildInfo s), false⟩, s)
    else if strToUpper t0 = ascii "COMMAND" then
      (⟨encodeSimpleString (ascii "OK"), false⟩, s)
    else if strToUpper t0 = ascii "CONFIG" then
      match args with
      | a1 :: a2 :: _ =>
        if strToUpper a1 = ascii "GET" then
          (⟨ascii "*2\r\n" ++ encodeBulkString a2 ++ encodeBulkString [], false⟩, s)
        else (⟨encodeSimpleString (ascii "OK"), false⟩, s)
      | _ => (⟨encodeSimpleString (ascii "OK"), false⟩, s)
    else if strToUpper t0 = ascii "CLIENT" then
      (⟨encodeSimpleString (ascii "OK"), false⟩, s)
    else
      (⟨encodeError (ascii "unknown command '" ++ t0 ++ ascii "'"), false⟩, s)

/-- `ClientHandler::execute`: one tokenized request against the
manager, producing the RESP-encoded response. -/
def execute (hash : Str → Nat) (bLoad : Str → LoadResult) (bStore : Str → Str → Bool)
    (s : CMState) (tokens : List Str) : Response × CMState :=
  match tokens with
  | [] => (⟨encodeError (ascii "empty command"), false⟩, s)
  | t0 :: args => executeCmd hash bLoad bStore s t0 args

/-- A byte string that is exactly one complete RESP reply: the
encoding of a single simple string, error, integer, bulk string, null
bulk or array of bulk strings, with line payloads free of CR/LF (so
the framing is unambiguous).  This is the spec-side notion from §6.1
used to state the one-reply-per-request property. -/
def lineOk (s : Str) : Prop := 13 ∉ s ∧ 10 ∉ s

instance instDecidableLineOk (s : Str) : Decidable (lineOk s) :=
  inferInstanceAs (Decidable (13 ∉ s ∧ 10 ∉ s))

def OneRespReply (r : Str) : Prop :=
  (∃ s, lineOk s ∧ r = encodeSimpleString s) ∨
  (∃ m, lineOk m ∧ r = encodeError m) ∨
  (∃ n, r = encodeInteger n) ∨
  (∃ s, r = encodeBulkString s) ∨
  r = encodeNull ∨
  (∃ items, r = encodeArray items)

/-- Observer: the node stored for `k` in its shard (a map lookup with
no promotion and no state change). -/
def segLookup (hash : Str → Nat) (sc : SegmentedCache) (k : Str) : Option CacheEntry :=
  (extractEntry (shardFor hash sc k).entries k).map Prod.fst

-- ═══════════════════════════════════════════════════════════════════
-- C4 of the component table: write-ahead log
-- (src/include/storage/wal.h)
-- ═══════════════════════════════════════════════════════════════════

/-- `w` little-endian bytes of `n` (a `memcpy` of a `w`-byte unsigned
integer on a little-endian host; values are reduced mod `256 ^ w` just
as the machine store does). -/
def leBytes : Nat → Nat → Str
  | 0, _ => []
  | w + 1, n => n % 256 :: leBytes w (n / 256)

def le32 (n : Nat) : Str := leBytes 4 n

def le64 (n : Nat) : Str := leBytes 8 n

/-- Little-endian value of a byte list (a `memcpy` into an integer). -/
def leVal : Str → Nat
  | [] => 0
  | b :: r => b % 256 + 256 * leVal r

/-- Read a `w`-byte little-endian integer at the head of `s`. -/
def readLE (w : Nat) (s : Str) : Nat := leVal (s.take w)

/-- `WALWriter::ComputeCRC` / `WALReader::ComputeCRC`: the FNV-style
rolling mix over the payload bytes, in `uint32_t` arithmetic. -/
def crcStep (crc c : Nat) : Nat :=
  Nat.xor (crc / 2 ^ 8) (Nat.xor crc c * 16777619 % 2 ^ 32)

def computeCRC (data : Str) : Nat := data.foldl crcStep 0

/-- `dcs::storage::WALRecordType`. -/
inductive WALRecordType
  | kPut
  | kDelete
  | kBatch
deriving Repr, DecidableEq

/-- The type byte written by `Serialize`. -/
def WALRecordType.code : WALRecordType → Nat
  | .kPut => 1
  | .kDelete => 2
  | .kBatch => 3

def byteToWALType (b : Nat) : WALRecordType :=
  if b = 1 then .kPut else if b = 2 then .kDelete else .kBatch

/-- `dcs::storage::WALRecord` (`sequence` is a `uint64_t`). -/
structure WALRecord where
  type : WALRecordType
  key : Str
  value : Str
  sequence : Nat
deriving Repr, DecidableEq

/-- `WALWriter::Serialize`:
`[Type:1][Seq:8 LE][KLen:4 LE][Key][VLen:4 LE][Value]`. -/
def WALRecord.serialize (r : WALRecord) : Str :=
  r.type.code :: (le64 r.sequence ++ le32 r.key.length ++ r.key ++
    le32 r.value.length ++ r.value)

/-- `WALWriter::WriteFrame`: `[CRC32:4 LE][Len:4 LE][Payload]`. -/
def writeFrame (payload : Str) : Str :=
  le32 (computeCRC payload) ++ le32 payload.length ++ payload

/-- The file produced on a fresh WAL by `Append(r₁); …; Append(rₙ);
Sync()` (each frame is one sequential write; `Sync` flushes). -/
def walFile (recs : List WALRecord) : Str :=
  (recs.map (fun r => writeFrame r.serialize)).flatten

/-- `WALReader::Deserialize` (the payload has passed the CRC check;
reads are at fixed offsets). -/
def walDeserialize (p : Str) : WALRecord :=
  let klen := readLE 4 (p.drop 9)
  { type := byteToWALType (p.getD 0 0),
    sequence := readLE 8 (p.drop 1),
    key := (p.drop 13).take klen,
    value := (p.drop (17 + klen)).take (readLE 4 (p.drop (13 + klen))) }

/-- The `WALReader::Replay` loop.  Each iteration consumes a frame of
at least 9 bytes (the length field is checked to be nonzero), so the
file length bounds the iteration count and serves as fuel.  A short
read, a zero or implausible (> 64 MiB) length, or a CRC mismatch stops
replay, exactly as in the source.  Returns the replayed records in
file order (the source invokes the callback on each and returns the
count, i.e. the length of this list). -/
def walReplayGo : Nat → Str → List WALRecord
  | 0, _ => []
  | fuel + 1, file =>
    if file.length < 8 then []
    else if readLE 4 (file.drop 4) = 0 ∨ 64 * 1024 * 1024 < readLE 4 (file.drop 4) then []
    else if file.length < 8 + readLE 4 (file.drop 4) then []
    else if computeCRC ((file.drop 8).take (readLE 4 (file.drop 4))) ≠ readLE 4 file then []
    else
      walDeserialize ((file.drop 8).take (readLE 4 (file.drop 4))) ::
        walReplayGo fuel (file.drop (8 + readLE 4 (file.drop 4)))

def walReplay (file : Str) : List WALRecord := walReplayGo file.length file

/-- A 67,108,848-byte value: its `Put` record's 67,108,865-byte
payload exceeds the reader's 64 MiB sanity bound. -/
def bigVal : Str := List.replicate 67108848 0

/-- The oversized `Put` record (empty key, sequence 0). -/
def bigRec : WALRecord := ⟨WALRecordType.kPut, [], bigVal, 0⟩

-- ═══════════════════════════════════════════════════════════════════
-- C5 of the component table: memtable (skip list)
-- (src/include/storage/memtable.h)
-- ═══════════════════════════════════════════════════════════════════

/-- `dcs::storage::ValueType`. -/
inductive ValueType
  | kValue
  | kDeletion
deriving Repr, DecidableEq

/-- `dcs::storage::InternalKey` (`sequence` is a `uint64_t`). -/
structure InternalKey where
  key : Str
  sequence : Nat
  type : ValueType
deriving Repr, DecidableEq

/-- `InternalKey::operator<`: user key ascending, then sequence
descending (newer first).  The type does not participate. -/
def ikLt (a b : InternalKey) : Bool :=
  if strLt a.key b.key then true
  else if strLt b.key a.key then false
  else decide (b.sequence < a.sequence)

/-- `InternalKey::operator==`: key and sequence only. -/
def ikEq (a b : InternalKey) : Bool :=
  decide (a.key = b.key) && decide (a.sequence = b.sequence)

/-- One skip-list node's payload.  The skip list's extra levels are a
search accelerator over the level-0 chain; the level-0 chain, in
`InternalKey` order, is the memtable's contents and is what `Get`,
`ForEach` and `Insert` observe, so the embedding is that chain. -/
structure MTEntry where
  ikey : InternalKey
  value : Str
deriving Repr, DecidableEq

/-- `MemTable::Insert`: find the insertion point (skipping nodes with
`node < ikey`); on an exact key+sequence match overwrite the node's
value (the node's stored `InternalKey`, including its type, is kept);
otherwise link a new node in. -/
def mtInsert : List MTEntry → InternalKey → Str → List MTEntry
  | [], ik, v => [⟨ik, v⟩]
  | e :: es, ik, v =>
    if ikLt e.ikey ik then e :: mtInsert es ik v
    else if ikEq e.ikey ik then ⟨e.ikey, v⟩ :: es
    else ⟨ik, v⟩ :: e :: es

/-- `MemTable::Put`. -/
def mtPut (es : List MTEntry) (k v : Str) (seq : Nat) : List MTEntry :=
  mtInsert es ⟨k, seq, .kValue⟩ v

/-- `MemTable::Delete`: a tombstone with empty value. -/
def mtDelete (es : List MTEntry) (k : Str) (seq : Nat) : List MTEntry :=
  mtInsert es ⟨k, seq, .kDeletion⟩ []

/-- `MemTable::LookupResult`. -/
structure MTLookupResult where
  found : Bool
  value : Str
  deleted : Bool
deriving Repr, DecidableEq

/-- `MemTable::Get`: seek to the first node not below the sentinel
`{key, UINT64_MAX, kValue}`; if it carries the same user key it is the
newest version of that key. -/
def mtGet (es : List MTEntry) (k : Str) : MTLookupResult :=
  let rest := es.dropWhile (fun e => ikLt e.ikey ⟨k, 2 ^ 64 - 1, .kValue⟩)
  match rest with
  | [] => ⟨false, [], false⟩
  | t :: _ =>
    if t.ikey.key = k then ⟨true, t.value, decide (t.ikey.type = .kDeletion)⟩
    else ⟨false, [], false⟩

/-- A memtable workload: the `Put`/`Delete` calls made against a fresh
memtable (sequences are engine-assigned `uint64_t` values). -/
inductive MTOp
  | put (k v : Str) (seq : Nat)
  | del (k : Str) (seq : Nat)

def MTOp.seq : MTOp → Nat
  | .put _ _ s => s
  | .del _ s => s

def mtApply (es : List MTEntry) : MTOp → List MTEntry
  | .put k v s => mtPut es k v s
  | .del k s => mtDelete es k s

def mtBuild (ops : List MTOp) : List MTEntry := ops.foldl mtApply []

/-- Observer: the entries stored for user key `k`, in list order. -/
def mtKeyEntries (es : List MTEntry) (k : Str) : List MTEntry :=
  es.filter (fun e => decide (e.ikey.key = k))

-- ═══════════════════════════════════════════════════════════════════
-- C6 of the component table: SSTable writer/reader and bloom filter
-- (embedded source file sstable.h)
-- ═══════════════════════════════════════════════════════════════════

/-- `dcs::storage::BloomFilter`: a byte array of bits, the bit count
(`num_bits_ = 8 * bits_.size()` for a constructed filter) and the hash
count. -/
structure BloomFilter where
  bits : List Nat
  numBits : Nat
  numHashes : Nat
deriving Repr, DecidableEq

/-- The default-constructed filter used before `Deserialize`
(`num_bits_ = 0`, `num_hashes_ = 7`). -/
instance : Inhabited BloomFilter := ⟨⟨[], 0, 7⟩⟩

/-- `BloomFilter::Hash`: seeded FNV-style mix in `size_t` (64-bit)
arithmetic. -/
def bloomHash (key : Str) (seed : Nat) : Nat :=
  key.foldl (fun h c => Nat.xor h c * 0x100000001b3 % 2 ^ 64)
    (seed * 0x9e3779b97f4a7c15 % 2 ^ 64)

/-- `bits_[h / 8] |= (1u << (h % 8))`. -/
def setBit (bytes : List Nat) (h : Nat) : List Nat :=
  bytes.set (h / 8) (Nat.lor (bytes.getD (h / 8) 0) (2 ^ (h % 8)))

/-- `bits_[h / 8] & (1u << (h % 8))`. -/
def getBit (bytes : List Nat) (h : Nat) : Bool :=
  decide (Nat.land (bytes.getD (h / 8) 0) (2 ^ (h % 8)) ≠ 0)

/-- `BloomFilter::Add`. -/
def BloomFilter.add (bf : BloomFilter) (key : Str) : BloomFilter :=
  ⟨(List.range bf.numHashes).foldl
      (fun bs i => setBit bs (bloomHash key i % bf.numBits)) bf.bits,
   bf.numBits, bf.numHashes⟩

/-- `BloomFilter::MayContain`. -/
def BloomFilter.mayContain (bf : BloomFilter) (key : Str) : Bool :=
  (List.range bf.numHashes).all (fun i => getBit bf.bits (bloomHash key i % bf.numBits))

/-- `BloomFilter::Serialize`: `[NumHashes:4][NumBytes:4][Bits…]`. -/
def BloomFilter.serialize (bf : BloomFilter) : Str :=
  le32 bf.numHashes ++ le32 bf.bits.length ++ bf.bits

/-- `BloomFilter::Deserialize` (`num_bits_ = n * 8`). -/
def bloomDeserialize (data : Str) : BloomFilter :=
  { numHashes := readLE 4 data,
    bits := (data.drop 8).take (readLE 4 (data.drop 4)),
    numBits := readLE 4 (data.drop 4) * 8 }

/-- The writer's member `bloom_{1024}` with the default fp 0.01:
`OptimalHashes(0.01) = max(1, int(-ln 0.01 / ln 2)) = 6` hashes and
`num_bits = max(64, 10 * 1024) = 10240` bits in 1280 bytes (the
floating-point expression is a constant folded at construction). -/
def bloomDefault1024 : BloomFilter :=
  { bits := List.replicate 1280 0, numBits := 10240, numHashes := 6 }

/-- `dcs::storage::BlockHandle`. -/
structure BlockHandle where
  offset : Nat
  size : Nat
deriving Repr, DecidableEq

/-- `dcs::storage::Footer` (without the constant magic). -/
structure SSTFooter where
  indexHandle : BlockHandle
  metaHandle : BlockHandle
  numEntries : Nat
deriving Repr, DecidableEq

def kSSTMagic : Nat := 0xDC5F00DA

/-- `Footer::Serialize`: a memcpy of the 48-byte struct — six 8-byte
little-endian fields, no padding. -/
def footerBytes (f : SSTFooter) : Str :=
  le64 f.indexHandle.offset ++ le64 f.indexHandle.size ++
  le64 f.metaHandle.offset ++ le64 f.metaHandle.size ++
  le64 f.numEntries ++ le64 kSSTMagic

/-- `SSTableWriter::KV`. -/
structure KV where
  key : Str
  value : Str
deriving Repr, DecidableEq

/-- `SSTableWriter::EncodeKV`: `[KeyLen:4][Key][ValLen:4][Value]`. -/
def encodeKV (key value : Str) : Str :=
  le32 key.length ++ key ++ le32 value.length ++ value

/-- `std::sort` on the comparator `a.key < b.key`, modelled as
insertion sort.  `std::sort` is unstable, so for entries with
duplicate keys its result order is unspecified; for pairwise distinct
keys — the case every claim is about — the sorted permutation is
unique and this model is exact. -/
def kvInsert (kv : KV) : List KV → List KV
  | [] => [kv]
  | e :: es => if strLt kv.key e.key then kv :: e :: es else e :: kvInsert kv es

def sortKV : List KV → List KV
  | [] => []
  | e :: es => kvInsert e (sortKV es)

/-- The writer's data-record loop: each sorted entry with the block
handle (`offset`, record size) the writer records for the index. -/
def buildRecords : List KV → Nat → List (KV × BlockHandle)
  | [], _ => []
  | kv :: rest, off =>
    (kv, ⟨off, (encodeKV kv.key kv.value).length⟩) ::
      buildRecords rest (off + (encodeKV kv.key kv.value).length)

def recordsBytes (l : List (KV × BlockHandle)) : Str :=
  (l.map (fun p => encodeKV p.1.key p.1.value)).flatten

/-- One entry of `SSTableWriter::EncodeIndex`:
`[KeyLen:4][Key][Offset:8][Size:8]`. -/
def encodeIndexEntry (k : Str) (bh : BlockHandle) : Str :=
  le32 k.length ++ k ++ le64 bh.offset ++ le64 bh.size

/-- `SSTableWriter::EncodeIndex`: `[N:4]` then the entries. -/
def encodeIndex (ies : List (Str × BlockHandle)) : Str :=
  le32 ies.length ++ (ies.map (fun e => encodeIndexEntry e.1 e.2)).flatten

/-- `SSTableWriter::Finish` applied to the entries accumulated by
`Add` (which also fed each key to the bloom filter in insertion
order): sort, write the data records, the index block, the serialized
bloom filter and the footer. -/
def sstFinish (entries : List KV) : Str :=
  recordsBytes (buildRecords (sortKV entries) 0) ++
  encodeIndex ((buildRecords (sortKV entries) 0).map (fun p => (p.1.key, p.2))) ++
  (entries.foldl (fun b kv => b.add kv.key) bloomDefault1024).serialize ++
  footerBytes
    ⟨⟨(recordsBytes (buildRecords (sortKV entries) 0)).length,
      (encodeIndex ((buildRecords (sortKV entries) 0).map
        (fun p => (p.1.key, p.2)))).length⟩,
     ⟨(recordsBytes (buildRecords (sortKV entries) 0)).length +
      (encodeIndex ((buildRecords (sortKV entries) 0).map
        (fun p => (p.1.key, p.2)))).length,
      ((entries.foldl (fun b kv => b.add kv.key) bloomDefault1024).serialize).length⟩,
     entries.length⟩

/-- `index_[key] = bh`: `unordered_map` assignment — overwrite the
binding if present, else add it. -/
def assocSet (l : List (Str × BlockHandle)) (k : Str) (bh : BlockHandle) :
    List (Str × BlockHandle) :=
  match l with
  | [] => [(k, bh)]
  | e :: es => if e.1 = k then (k, bh) :: es else e :: assocSet es k bh

/-- `index_.find(key)`. -/
def assocFind (l : List (Str × BlockHandle)) (k : Str) : Option BlockHandle :=
  match l with
  | [] => none
  | e :: es => if e.1 = k then some e.2 else assocFind es k

/-- `SSTableReader::DecodeIndex` entry loop (the buffer position
advances by `20 + klen` per entry; the model drops the consumed
prefix instead of carrying the position). -/
def decodeIndexGo : Str → Nat → List (Str × BlockHandle) → List (Str × BlockHandle)
  | _, 0, acc => acc
  | data, i + 1, acc =>
    decodeIndexGo (data.drop (20 + readLE 4 data)) i
      (assocSet acc ((data.drop 4).take (readLE 4 data))
        ⟨readLE 8 (data.drop (4 + readLE 4 data)),
         readLE 8 (data.drop (12 + readLE 4 data))⟩)

def decodeIndex (data : Str) : List (Str × BlockHandle) :=
  decodeIndexGo (data.drop 4) (readLE 4 data) []

/-- The reader's parsed state (`valid_`, `bloom_`, `index_`, plus the
file it re-reads records from). -/
structure SSTReaderState where
  valid : Bool
  bloom : BloomFilter
  index : List (Str × BlockHandle)
  file : Str
deriving Repr, DecidableEq

/-- `SSTableReader::Load`: footer at `EOF - 48`, magic check, then
bloom and index blocks at their handles. -/
def sstLoad (file : Str) : SSTReaderState :=
  if file.length < 48 then ⟨false, default, [], file⟩
  else if readLE 8 ((file.drop (file.length - 48)).drop 40) ≠ kSSTMagic then
    ⟨false, default, [], file⟩
  else
    ⟨true,
     bloomDeserialize ((file.drop (readLE 8 ((file.drop (file.length - 48)).drop 16))).take
       (readLE 8 ((file.drop (file.length - 48)).drop 24))),
     decodeIndex ((file.drop (readLE 8 (file.drop (file.length - 48)))).take
       (readLE 8 ((file.drop (file.length - 48)).drop 8))),
     file⟩

/-- `SSTableReader::ReadKVAt`: re-read the record at the handle,
verify the stored key, return the value; `none` when the key check or
the final stream-state check fails. -/
def readKVAt (file : Str) (bh : BlockHandle) (expected : Str) : Option Str :=
  if (file.drop (bh.offset + 4)).take (readLE 4 (file.drop bh.offset)) ≠ expected then
    none
  else if file.length < bh.offset + 8 + readLE 4 (file.drop bh.offset) +
      readLE 4 (file.drop (bh.offset + 4 + readLE 4 (file.drop bh.offset))) then
    none
  else
    some ((file.drop (bh.offset + 8 + readLE 4 (file.drop bh.offset))).take
      (readLE 4 (file.drop (bh.offset + 4 + readLE 4 (file.drop bh.offset)))))

/-- `SSTableReader::Get` (`none` is a miss). -/
def sstGet (r : SSTReaderState) (key : Str) : Option Str :=
  if ¬ r.valid then none
  else if ¬ r.bloom.mayContain key then none
  else
    match assocFind r.index key with
    | none => none
    | some bh => readKVAt r.file bh key

-- ═══════════════════════════════════════════════════════════════════
-- C7 of the component table: LSM engine
-- (src/unnamed/part_003)
-- ═══════════════════════════════════════════════════════════════════

def kMaxLevels : Nat := 4

/-- `dcs::storage::LSMEngine` state: the sequence counter, the active
and immutable memtables (level-0 chains), the `flush_pending_` flag
and the four SSTable levels, each a vector of readers in push order
(oldest first).  The WAL append in `store`/`remove` and the statistics
counters are omitted: no read path consults them. -/
structure LSMState where
  sequence : Nat
  memtable : List MTEntry
  immMemtable : Option (List MTEntry)
  flushPending : Bool
  levels : List (List SSTReaderState)
deriving Repr, DecidableEq

/-- The freshly constructed engine (empty data directory). -/
def lsmInit : LSMState := ⟨0, [], none, false, [[], [], [], []]⟩

/-- `LSMEngine::store`: assign `seq = sequence_++`, put into the
memtable. -/
def lsmStore (s : LSMState) (k v : Str) : LSMState :=
  { s with sequence := s.sequence + 1,
           memtable := mtPut s.memtable k v s.sequence }

/-- `LSMEngine::remove`: assign `seq = sequence_++`, write a tombstone
into the memtable. -/
def lsmRemove (s : LSMState) (k : Str) : LSMState :=
  { s with sequence := s.sequence + 1,
           memtable := mtDelete s.memtable k s.sequence }

/-- The nested SSTable search of `load` step 3: levels in ascending
order, and within a level newest reader (highest index) first. -/
def levelsGet (levels : List (List SSTReaderState)) (k : Str) : Option Str :=
  levels.findSome? (fun lvl => lvl.reverse.findSome? (fun r => sstGet r k))

/-- `LSMEngine::load`: active memtable, then immutable memtable (a
`found` tombstone answers `Miss` from either), then the SSTables,
else `Miss`. -/
def lsmLoad (s : LSMState) (k : Str) : LoadResult :=
  if (mtGet s.memtable k).found then
    (if (mtGet s.memtable k).deleted then LoadResult.Miss
     else LoadResult.Hit (mtGet s.memtable k).value)
  else
    match s.immMemtable with
    | some imm =>
      if (mtGet imm k).found then
        (if (mtGet imm k).deleted then LoadResult.Miss
         else LoadResult.Hit (mtGet imm k).value)
      else
        match levelsGet s.levels k with
        | some v => LoadResult.Hit v
        | none => LoadResult.Miss
    | none =>
      match levelsGet s.levels k with
      | some v => LoadResult.Hit v
      | none => LoadResult.Miss

/-- The `ForEach` callback of `DoFlush`: only `kValue` entries are
handed to the `SSTableWriter`, in chain order — tombstones are not
written. -/
def flushedKVs (imm : List MTEntry) : List KV :=
  (imm.filter (fun e => decide (e.ikey.type = ValueType.kValue))).map
    (fun e => ⟨e.ikey.key, e.value⟩)

/-- `LSMEngine::DoFlush` (caller holds `imm_mu_`): write the filtered
immutable memtable through `SSTableWriter::Finish`, open a reader on
the file and push it onto level 0, then drop the immutable memtable
and clear `flush_pending_`. -/
def lsmDoFlush (s : LSMState) : LSMState :=
  match s.immMemtable with
  | none => s
  | some imm =>
    { s with
      levels := match s.levels with
                | l0 :: rest => (l0 ++ [sstLoad (sstFinish (flushedKVs imm))]) :: rest
                | [] => [],
      immMemtable := none,
      flushPending := false }

/-- `SSTableReader::AllKeys`: the index keys, sorted (modelled with
the same insertion sort as the writer's `std::sort`). -/
def strInsert (s : Str) : List Str → List Str
  | [] => [s]
  | x :: xs => if strLt s x then s :: x :: xs else x :: strInsert s xs

def strSort : List Str → List Str
  | [] => []
  | x :: xs => strInsert x (strSort xs)

def sstAllKeys (r : SSTReaderState) : List Str := strSort (r.index.map Prod.fst)

/-- `merged[key] = val` on the compaction `unordered_map`, assignment
semantics as for the reader's index map. -/
def smSet (l : List (Str × Str)) (k v : Str) : List (Str × Str) :=
  match l with
  | [] => [(k, v)]
  | e :: es => if e.1 = k then (k, v) :: es else e :: smSet es k v

def smFind (l : List (Str × Str)) (k : Str) : Option Str :=
  match l with
  | [] => none
  | e :: es => if e.1 = k then some e.2 else smFind es k

/-- One source-level table of `CompactLevel`'s first loop: every key
the table can serve is written into `merged`. -/
def mergeTable (m : List (Str × Str)) (r : SSTReaderState) : List (Str × Str) :=
  (sstAllKeys r).foldl (fun acc key =>
    match sstGet r key with
    | some val => smSet acc key val
    | none => acc) m

/-- One next-level table of `CompactLevel`'s second loop: only keys
not already in `merged`. -/
def mergeTableIfAbsent (m : List (Str × Str)) (r : SSTReaderState) :
    List (Str × Str) :=
  (sstAllKeys r).foldl (fun acc key =>
    match smFind acc key with
    | some _ => acc
    | none =>
      match sstGet r key with
      | some val => smSet acc key val
      | none => acc) m

/-- `LSMEngine::CompactLevel(0)`: merge all of L0 (oldest first, so
newer tables overwrite) plus the L1 keys not shadowed, write the
merged table (the `unordered_map` iteration order is unspecified in
the source; the model iterates in insertion order), clear L0 and L1
and install the new table as the sole L1 reader. -/
def lsmCompactLevel0 (s : LSMState) : LSMState :=
  if (s.levels.getD 0 []).isEmpty then s
  else
    { s with
      levels := [] ::
        [sstLoad (sstFinish
          ((((s.levels.getD 1 []).foldl mergeTableIfAbsent
              ((s.levels.getD 0 []).foldl mergeTable [])).map
            (fun p => (⟨p.1, p.2⟩ : KV)))))] ::
        s.levels.drop 2 }

/-- `LSMEngine::ForceCompaction`: freeze a non-empty active memtable,
flush if pending, then compact level 0 if it is non-empty. -/
def lsmForceCompaction (s : LSMState) : LSMState :=
  lsmForceCompactionStep2 (lsmForceCompactionStep1 s)
where
  lsmForceCompactionStep1 (s : LSMState) : LSMState :=
    lsmFlushIfPending
      (if s.memtable.isEmpty then s
       else { s with immMemtable := some s.memtable, memtable := [],
                     flushPending := true })
  lsmFlushIfPending (s : LSMState) : LSMState :=
    match s.immMemtable with
    | some _ => if s.flushPending then lsmDoFlush s else s
    | none => s
  lsmForceCompactionStep2 (s : LSMState) : LSMState :=
    if (s.levels.getD 0 []).isEmpty then s else lsmCompactLevel0 s

-- ═══════════════════════════════════════════════════════════════════
-- C12 of the component table: Raft node and log
-- (src/unnamed/part_005, src/include/raft/raft_log.h)
-- ═══════════════════════════════════════════════════════════════════

/-- `dcs::raft::RaftRole`. -/
inductive RaftRole
  | follower
  | candidate
  | leader
deriving Repr, DecidableEq

/-- `dcs::raft::LogEntry` (`term` and `index` are `uint64_t`). -/
structure LogEntry where
  term : Nat
  index : Nat
  command : Str
deriving Repr, DecidableEq

/-- `RaftLog::LastIndex`. -/
def raftLastIndex (entries : List LogEntry) : Nat :=
  match entries.getLast? with
  | none => 0
  | some e => e.index

/-- `RaftLog::GetEntry`: linear scan for the entry with the given
index (entries may not start at index 1 after compaction). -/
def raftGetEntry (entries : List LogEntry) (i : Nat) : Option LogEntry :=
  entries.find? (fun e => decide (e.index = i))

/-- The `RaftNode` state touched by `Propose` and the applier:
role, persistent current term, the log entries, and the commit/apply
cursors. -/
structure RaftState where
  role : RaftRole
  currentTerm : Nat
  commitIndex : Nat
  lastApplied : Nat
  entries : List LogEntry
deriving Repr, DecidableEq

/-- `RaftNode::Propose`: only a leader accepts; a non-leader returns
false without touching the log.  A leader appends
`{term := current_term, index := last_index + 1, command}`. -/
def raftPropose (s : RaftState) (cmd : Str) : Bool × RaftState :=
  if s.role ≠ RaftRole.leader then (false, s)
  else
    (true, { s with entries := s.entries ++
      [⟨s.currentTerm, raftLastIndex s.entries + 1, cmd⟩] })

/-- The drain loop of `RaftNode::ApplierLoop`:
`while (last_applied_ < commit_index_) { last_applied_++; if
(GetEntry(last_applied_, e) && cb) cb(e.index, e.command); }`.
Fuel is `commit_index - last_applied`, the exact trip count.  Returns
the `(index, command)` pairs passed to the apply callback, in call
order. -/
def applierDrainGo (entries : List LogEntry) : Nat → Nat → Nat → List (Nat × Str)
  | 0, _, _ => []
  | fuel + 1, la, ci =>
    if la < ci then
      match raftGetEntry entries (la + 1) with
      | some e => (e.index, e.command) :: applierDrainGo entries fuel (la + 1) ci
      | none => applierDrainGo entries fuel (la + 1) ci
    else []

/-- One wake-up of the applier: the applied entries and the state with
`last_applied` advanced to `commit_index`. -/
def applierDrain (s : RaftState) : List (Nat × Str) × RaftState :=
  (applierDrainGo s.entries (s.commitIndex - s.lastApplied) s.lastApplied s.commitIndex,
   { s with lastApplied := if s.lastApplied < s.commitIndex then s.commitIndex
                           else s.lastApplied })

-- ═══════════════════════════════════════════════════════════════════
-- Theorems
-- ═══════════════════════════════════════════════════════════════════

theorem extractEntry_eq_none {es : List CacheEntry} {k : Str} :
    extractEntry es k = none ↔ ∀ e ∈ es, e.key ≠ k := by
  induction es with
  | nil => simp [extractEntry]
  | cons e es ih =>
    by_cases h : e.key = k
    · simp [extractEntry, h]
    · simp only [extractEntry, h, if_false, List.mem_cons]
      cases hrec : extractEntry es k with
      | none =>
        simp only [hrec, true_iff]
        intro e' he'
        rcases he' with rfl | he'
        · exact h
        · exact (ih.mp hrec) e' he'
      | some p =>
        simp only [hrec]
        constructor
        · intro hfalse; cases hfalse
        · intro hall
          have : extractEntry es k = none := ih.mpr (fun e' he' => hall e' (Or.inr he'))
          rw [this] at hrec; cases hrec

theorem evictLoop_stop {fuel cap : Nat} {es : List CacheEntry}
    (h : es.length < cap) : evictLoop fuel cap es = (es, []) := by
  cases fuel with
  | zero => rfl
  | succ n => simp [evictLoop, Nat.not_le.mpr h]

theorem evictLoop_last (as : List CacheEntry) (a : CacheEntry) (cap : Nat)
    (hcap : cap = as.length + 1) :
    evictLoop (as.length + 1) cap (as ++ [a]) = (as, [a]) := by
  have hpop : popBack (as ++ [a]) = some (a, as) := by
    simp [popBack, List.getLast?_concat, List.dropLast_concat]
  simp only [evictLoop, hpop]
  rw [if_pos (by simp [hcap])]
  simp [evictLoop_stop (show as.length < cap by omega)]

/-- Claim C5: with `size == capacity` and the least-recently-touched key
`K` at the list tail, `put(Knew, v)` for a fresh `Knew` evicts exactly
the node carrying `K`; afterwards `Knew` and every previously present
key other than `K` is present. -/
theorem C5_lru_eviction_order (c : LRUCache) (K Knew v : Str)
    (hfull : c.entries.length = c.capacity)
    (hlast : (c.entries.getLast?).map CacheEntry.key = some K)
    (hnew : ∀ e ∈ c.entries, e.key ≠ Knew)
    (hnodup : (c.entries.map CacheEntry.key).Nodup) :
    ((c.put Knew v).2.map CacheEntry.key = [K]) ∧
    (∀ k, (k ∈ (c.put Knew v).1.entries.map CacheEntry.key) ↔
      (k = Knew ∨ (k ∈ c.entries.map CacheEntry.key ∧ k ≠ K))) := by
  obtain ⟨cap, es⟩ := c
  induction es using List.reverseRecOn with
  | nil => simp at hlast
  | append_singleton as a _ =>
    simp only at hfull hlast hnew hnodup ⊢
    have hKa : a.key = K := by
      rw [List.getLast?_concat] at hlast
      simpa using hlast
    have hext : extractEntry (as ++ [a]) Knew = none := extractEntry_eq_none.mpr hnew
    have hlen : (as ++ [a]).length = as.length + 1 := by simp
    have hev : evictLoop (as ++ [a]).length cap (as ++ [a]) = (as, [a]) := by
      rw [hlen]
      exact evictLoop_last as a cap (by rw [hlen] at hfull; omega)
    simp only [LRUCache.put, hext, hev]
    refine ⟨by simp [hKa], ?_⟩
    intro k
    have hnd : (List.map CacheEntry.key as ++ [a.key]).Nodup := by simpa using hnodup
    have hdisj := (List.nodup_append.mp hnd).2.2
    simp only [List.map_cons, List.map_append, List.map_nil, List.mem_cons, List.mem_append,
      List.mem_singleton]
    constructor
    · rintro (hk | hk)
      · exact Or.inl hk
      · refine Or.inr ⟨Or.inl hk, fun hkK => ?_⟩
        exact hdisj hk (by simp [hKa, hkK])
    · rintro (hk | ⟨hk | hk, hne⟩)
      · exact Or.inl hk
      · exact Or.inr hk
      · rcases hk with hk | hk
        · exact absurd (hk.trans hKa) hne
        · cases hk

theorem getD_set_self (l : List LRUCache) (i : Nat) (c : LRUCache) (h : i < l.length) :
    (l.set i c).getD i default = c := by
  induction l generalizing i with
  | nil => simp at h
  | cons x xs ih =>
    cases i with
    | zero => rfl
    | succ n => simpa using ih n (by simpa using h)

theorem segIndex_lt (hash : Str → Nat) (k : Str) : segIndex hash k < N_SEGMENTS :=
  Nat.mod_lt _ (by decide)

theorem shardFor_setShard_self (hash : Str → Nat) (sc : SegmentedCache) (k : Str)
    (c : LRUCache) (hlen : sc.shards.length = N_SEGMENTS) :
    shardFor hash (setShard hash sc k c) k = c := by
  have h : segIndex hash k < sc.shards.length := by
    rw [hlen]; exact segIndex_lt hash k
  simp only [shardFor, setShard]
  exact getD_set_self _ _ _ h

theorem setShard_length (hash : Str → Nat) (sc : SegmentedCache) (k : Str)
    (c : LRUCache) : (setShard hash sc k c).shards.length = sc.shards.length := by
  simp [setShard]

theorem lruGet_of_extract_none {c : LRUCache} {k : Str}
    (h : extractEntry c.entries k = none) : c.get k = (CacheResult.Miss, c) := by
  simp [LRUCache.get, h]

theorem lruGet_of_extract_some {c : LRUCache} {k : Str} {e : CacheEntry}
    {rest : List CacheEntry} (h : extractEntry c.entries k = some (e, rest)) :
    c.get k = (CacheResult.Hit e.value, { c with entries := e :: rest }) := by
  simp [LRUCache.get, h]

theorem backfill_lookup (c : LRUCache) (k v : Str)
    (h : extractEntry c.entries k = none) :
    extractEntry (((c.put k v).1.clearDirty k).entries) k =
      some (⟨k, v, false⟩, (evictLoop c.entries.length c.capacity c.entries).1) := by
  simp [LRUCache.put, h, LRUCache.clearDirty, clearDirtyIn, extractEntry]

theorem seg_backfill_lookup (hash : Str → Nat) (sc : SegmentedCache) (k v : Str)
    (hlen : sc.shards.length = N_SEGMENTS)
    (hex : extractEntry (shardFor hash sc k).entries k = none) :
    segLookup hash (SegmentedCache.clearDirty hash (SegmentedCache.put hash sc k v) k) k =
      some ⟨k, v, false⟩ := by
  have hlen2 : (SegmentedCache.put hash sc k v).shards.length = N_SEGMENTS := by
    simp only [SegmentedCache.put]
    rw [setShard_length]; exact hlen
  simp only [segLookup, SegmentedCache.clearDirty]
  rw [shardFor_setShard_self _ _ _ _ hlen2]
  simp only [SegmentedCache.put]
  rw [shardFor_setShard_self _ _ _ _ hlen]
  rw [backfill_lookup _ _ _ hex]
  rfl

/-- Claim C4: the cache-aside read path.  On a cache hit the hit
counter is incremented and the cached value returned; on a miss the
miss counter is incremented and the backend consulted; a backend hit
is returned and backfilled into the cache as a clean entry; a backend
miss is returned as Miss. -/
theorem C4_cache_aside_read (hash : Str → Nat) (bLoad : Str → LoadResult)
    (s : CMState) (k : Str)
    (hlen : s.cache.shards.length = N_SEGMENTS) :
    (∀ e, segLookup hash s.cache k = some e →
      (cmGet hash bLoad s k).1 = CacheResult.Hit e.value ∧
      (cmGet hash bLoad s k).2.stats.cacheHits = s.stats.cacheHits + 1 ∧
      (cmGet hash bLoad s k).2.stats.cacheMisses = s.stats.cacheMisses) ∧
    (segLookup hash s.cache k = none → (bLoad k).found = true →
      (cmGet hash bLoad s k).1 = CacheResult.Hit (bLoad k).value ∧
      (cmGet hash bLoad s k).2.stats.cacheMisses = s.stats.cacheMisses + 1 ∧
      (cmGet hash bLoad s k).2.stats.cacheHits = s.stats.cacheHits ∧
      segLookup hash (cmGet hash bLoad s k).2.cache k =
        some ⟨k, (bLoad k).value, false⟩) ∧
    (segLookup hash s.cache k = none → (bLoad k).found = false →
      (cmGet hash bLoad s k).1 = CacheResult.Miss ∧
      (cmGet hash bLoad s k).2.stats.cacheMisses = s.stats.cacheMisses + 1) := by
  refine ⟨?_, ?_, ?_⟩
  · intro e he
    obtain ⟨⟨e', rest⟩, hex, hfst⟩ := Option.map_eq_some.mp he
    obtain rfl : e' = e := hfst
    simp [cmGet, SegmentedCache.get, lruGet_of_extract_some hex, CacheResult.Hit]
  · intro hnone hfound
    have hex : extractEntry (shardFor hash s.cache k).entries k = none := by
      cases hcase : extractEntry (shardFor hash s.cache k).entries k with
      | none => rfl
      | some p => rw [segLookup, hcase] at hnone; cases hnone
    have hmiss := lruGet_of_extract_none hex
    have hlen1 : (setShard hash s.cache k (shardFor hash s.cache k)).shards.length =
        N_SEGMENTS := by rw [setShard_length]; exact hlen
    have hex1 : extractEntry
        (shardFor hash (setShard hash s.cache k (shardFor hash s.cache k)) k).entries k =
        none := by
      rw [shardFor_setShard_self _ _ _ _ hlen]; exact hex
    have hback := seg_backfill_lookup hash
      (setShard hash s.cache k (shardFor hash s.cache k)) k (bLoad k).value hlen1 hex1
    refine ⟨?_, ?_, ?_, ?_⟩
    · simp [cmGet, SegmentedCache.get, hmiss, CacheResult.Miss, hfound]
    · simp [cmGet, SegmentedCache.get, hmiss, CacheResult.Miss, hfound]
    · simp [cmGet, SegmentedCache.get, hmiss, CacheResult.Miss, hfound]
    · simp only [cmGet, SegmentedCache.get, hmiss, CacheResult.Miss, hfound,
        Bool.false_eq_true, if_false, if_true]
      exact hback
  · intro hnone hnotfound
    have hex : extractEntry (shardFor hash s.cache k).entries k = none := by
      cases hcase : extractEntry (shardFor hash s.cache k).entries k with
      | none => rfl
      | some p => rw [segLookup, hcase] at hnone; cases hnone
    have hmiss := lruGet_of_extract_none hex
    simp [cmGet, SegmentedCache.get, hmiss, CacheResult.Miss, hnotfound]

/-- Witness for C4 on a concrete one-shard-populated manager. -/
theorem C4_cache_aside_read_witness :
    (cmDefault.cache.shards.length = N_SEGMENTS) ∧
    ((cmGet (fun _ => 0) (fun _ => LoadResult.Hit (ascii "v")) cmDefault (ascii "a")).1 =
      CacheResult.Hit (ascii "v")) :=
  ⟨by decide,
   ((C4_cache_aside_read (fun _ => 0) (fun _ => LoadResult.Hit (ascii "v"))
       cmDefault (ascii "a") (by decide)).2.1 (by decide) (by decide)).1⟩

/-- Claim C10: EXISTS consults only the in-memory cache.  A key absent
from the cache but present in the backend yields `exists = false`
(reply `:0`) even though `get` on the same state hits via the backend:
`exists` is not `get(k).hit` at the cache-manager level. -/
theorem C10_exists_cache_only (hash : Str → Nat) (bLoad : Str → LoadResult)
    (bStore : Str → Str → Bool) (s : CMState) (k v : Str)
    (habsent : SegmentedCache.existsKey hash s.cache k = false)
    (hbackend : bLoad k = LoadResult.Hit v) :
    cmExists hash s k = false ∧
    (execute hash bLoad bStore s [ascii "EXISTS", k]).1.data = ascii ":0\r\n" ∧
    (cmGet hash bLoad s k).1 = CacheResult.Hit v := by
  have hex : extractEntry (shardFor hash s.cache k).entries k = none := by
    cases hcase : extractEntry (shardFor hash s.cache k).entries k with
    | none => rfl
    | some p => simp [SegmentedCache.existsKey, LRUCache.existsKey, hcase] at habsent
  have hx : cmExists hash s k = false := habsent
  refine ⟨hx, ?_, ?_⟩
  · have hstep : execute hash bLoad bStore s [ascii "EXISTS", k] =
        (⟨encodeInteger (if cmExists hash s k then 1 else 0), false⟩, s) := rfl
    rw [hstep, hx]
    rfl
  · have hmiss := lruGet_of_extract_none hex
    simp [cmGet, SegmentedCache.get, hmiss, CacheResult.Miss, hbackend, LoadResult.Hit]

/-- Witness for C10 on the default (empty-cache) manager with a
backend holding the key. -/
theorem C10_exists_cache_only_witness :
    (SegmentedCache.existsKey (fun _ => 0) cmDefault.cache (ascii "a") = false) ∧
    cmExists (fun _ => 0) cmDefault (ascii "a") = false ∧
    (execute (fun _ => 0) (fun _ => LoadResult.Hit (ascii "v")) (fun _ _ => true)
      cmDefault [ascii "EXISTS", ascii "a"]).1.data = ascii ":0\r\n" ∧
    (cmGet (fun _ => 0) (fun _ => LoadResult.Hit (ascii "v")) cmDefault (ascii "a")).1 =
      CacheResult.Hit (ascii "v") :=
  ⟨by decide,
   C10_exists_cache_only (fun _ => 0) (fun _ => LoadResult.Hit (ascii "v"))
     (fun _ _ => true) cmDefault (ascii "a") (ascii "v") (by decide) (by decide)⟩

theorem delLoop_count (hash : Str → Nat) (s : CMState) (ks : List Str) :
    (delLoop hash s ks).1 = ks.length := by
  induction ks generalizing s with
  | nil => rfl
  | cons k ks ih => simp [delLoop, cmDel, ih]

/-- Claim C2 (amended): `CacheManager::del` returns `true`
unconditionally, so the DEL reply counts the argument keys, not the
keys that existed: `DEL k1 … kn` replies `:n` for every manager state. -/
theorem C2_del_counts_argument_keys (hash : Str → Nat) (bLoad : Str → LoadResult)
    (bStore : Str → Str → Bool) (s : CMState) (ks : List Str) (h : ks ≠ []) :
    (execute hash bLoad bStore s (ascii "DEL" :: ks)).1.data = encodeInteger ks.length := by
  cases ks with
  | nil => exact absurd rfl h
  | cons k0 ks' =>
    have hstep : execute hash bLoad bStore s (ascii "DEL" :: k0 :: ks') =
        (⟨encodeInteger (delLoop hash s (k0 :: ks')).1, false⟩,
         (delLoop hash s (k0 :: ks')).2) := rfl
    rw [hstep, delLoop_count]

/-- Witness for the amended C2. -/
theorem C2_del_counts_argument_keys_witness :
    ([ascii "x", ascii "y"] ≠ ([] : List Str)) ∧
    (execute (fun _ => 0) (fun _ => LoadResult.Miss) (fun _ _ => true) cmDefault
      (ascii "DEL" :: [ascii "x", ascii "y"])).1.data = encodeInteger 2 :=
  ⟨by decide,
   C2_del_counts_argument_keys (fun _ => 0) (fun _ => LoadResult.Miss) (fun _ _ => true)
     cmDefault [ascii "x", ascii "y"] (by decide)⟩

/-- Counterexample to C2 as stated: on the default manager, after
`SET x 1` the request `DEL x y z` replies `:3` (one count per argument
key, since `CacheManager::del` always returns `true`), not `:1`. -/
theorem C2_counterexample :
    (execute (fun _ => 0) (fun _ => LoadResult.Miss) (fun _ _ => true)
      ((execute (fun _ => 0) (fun _ => LoadResult.Miss) (fun _ _ => true) cmDefault
        [ascii "SET", ascii "x", ascii "1"]).2)
      [ascii "DEL", ascii "x", ascii "y", ascii "z"]).1.data = ascii ":3\r\n" ∧
    (ascii ":3\r\n" ≠ ascii ":1\r\n") :=
  ⟨by decide, by decide⟩

theorem oneReply_simple (s : Str) (h : lineOk s) : OneRespReply (encodeSimpleString s) :=
  Or.inl ⟨s, h, rfl⟩

theorem oneReply_error (m : Str) (h : lineOk m) : OneRespReply (encodeError m) :=
  Or.inr (Or.inl ⟨m, h, rfl⟩)

theorem oneReply_int (n : Nat) : OneRespReply (encodeInteger n) :=
  Or.inr (Or.inr (Or.inl ⟨n, rfl⟩))

theorem oneReply_bulk (s : Str) : OneRespReply (encodeBulkString s) :=
  Or.inr (Or.inr (Or.inr (Or.inl ⟨s, rfl⟩)))

theorem oneReply_null : OneRespReply encodeNull :=
  Or.inr (Or.inr (Or.inr (Or.inr (Or.inl rfl))))

theorem oneReply_array (items : List Str) : OneRespReply (encodeArray items) :=
  Or.inr (Or.inr (Or.inr (Or.inr (Or.inr ⟨items, rfl⟩))))

theorem lineOk_append {a b : Str} (ha : lineOk a) (hb : lineOk b) : lineOk (a ++ b) := by
  constructor
  · intro hmem
    rcases List.mem_append.mp hmem with h | h
    · exact ha.1 h
    · exact hb.1 h
  · intro hmem
    rcases List.mem_append.mp hmem with h | h
    · exact ha.2 h
    · exact hb.2 h

theorem configReply_eq_array (x : Str) :
    ascii "*2\r\n" ++ encodeBulkString x ++ encodeBulkString [] = encodeArray [x, []] := by
  have h : ascii "*2\r\n" = [42, 50, 13, 10] := by decide
  rw [h]
  simp [encodeArray, natToDec, natToDecGo, CRLF]

/-- Claim C8 (amended): inline parsing and non-'*' buffers never
throw, and every accepted request whose command token is CR/LF-free
produces exactly one RESP reply; but a '*'-framed buffer whose count
or bulk-length field is not a valid integer makes `std::stoi` throw
(see the counterexample), so the never-panics half fails as stated. -/
theorem C8_no_panic_amended :
    (∀ buf : Str, buf.getD 0 0 ≠ 42 → ∃ r, respParse buf = Except.ok r) ∧
    (∀ (hash : Str → Nat) (bLoad : Str → LoadResult) (bStore : Str → Str → Bool)
      (s : CMState) (t0 : Str) (args : List Str), lineOk t0 →
      OneRespReply (execute hash bLoad bStore s (t0 :: args)).1.data) := by
  constructor
  · intro buf h
    by_cases hb : buf = []
    · exact ⟨([], 0), by simp [respParse, hb]⟩
    · refine ⟨parseInline buf, ?_⟩
      unfold respParse
      rw [if_neg hb, if_neg h]
  · intro hash bLoad bStore s t0 args hline
    have hunk : lineOk (ascii "unknown command '" ++ t0 ++ ascii "'") :=
      lineOk_append (lineOk_append (by decide) hline) (by decide)
    show OneRespReply (executeCmd hash bLoad bStore s t0 args).1.data
    unfold executeCmd
    by_cases h1 : strToUpper t0 = ascii "GET"
    · rw [if_pos h1]
      cases args with
      | nil => exact oneReply_error _ (by decide)
      | cons k tail =>
        dsimp only
        split
        · exact oneReply_bulk _
        · exact oneReply_null
    rw [if_neg h1]
    by_cases h2 : strToUpper t0 = ascii "SET"
    · rw [if_pos h2]
      cases args with
      | nil => exact oneReply_error _ (by decide)
      | cons k tail =>
        cases tail with
        | nil => exact oneReply_error _ (by decide)
        | cons v0 vs => exact oneReply_simple _ (by decide)
    rw [if_neg h2]
    by_cases h3 : strToUpper t0 = ascii "DEL"
    · rw [if_pos h3]
      cases args with
      | nil => exact oneReply_error _ (by decide)
      | cons k tail => exact oneReply_int _
    rw [if_neg h3]
    by_cases h4 : strToUpper t0 = ascii "EXISTS"
    · rw [if_pos h4]
      cases args with
      | nil => exact oneReply_error _ (by decide)
      | cons k tail => exact oneReply_int _
    rw [if_neg h4]
    by_cases h5 : strToUpper t0 = ascii "KEYS"
    · rw [if_pos h5]
      exact oneReply_array _
    rw [if_neg h5]
    by_cases h6 : strToUpper t0 = ascii "DBSIZE"
    · rw [if_pos h6]
      exact oneReply_int _
    rw [if_neg h6]
    by_cases h7 : strToUpper t0 = ascii "FLUSHALL" ∨ strToUpper t0 = ascii "FLUSHDB"
    · rw [if_pos h7]
      exact oneReply_simple _ (by decide)
    rw [if_neg h7]
    by_cases h8 : strToUpper t0 = ascii "PING"
    · rw [if_pos h8]
      cases args with
      | nil => exact oneReply_simple _ (by decide)
      | cons m tail => exact oneReply_bulk _
    rw [if_neg h8]
    by_cases h9 : strToUpper t0 = ascii "QUIT"
    · rw [if_pos h9]
      exact oneReply_simple _ (by decide)
    rw [if_neg h9]
    by_cases h10 : strToUpper t0 = ascii "INFO"
    · rw [if_pos h10]
      exact oneReply_bulk _
    rw [if_neg h10]
    by_cases h11 : strToUpper t0 = ascii "COMMAND"
    · rw [if_pos h11]
      exact oneReply_simple _ (by decide)
    rw [if_neg h11]
    by_cases h12 : strToUpper t0 = ascii "CONFIG"
    · rw [if_pos h12]
      cases args with
      | nil => exact oneReply_simple _ (by decide)
      | cons a1 tail =>
        cases tail with
        | nil => exact oneReply_simple _ (by decide)
        | cons a2 rest =>
          by_cases hcg : strToUpper a1 = ascii "GET"
          · dsimp only
            rw [if_pos hcg]
            have h := oneReply_array [a2, []]
            rw [← configReply_eq_array] at h
            exact h
          · dsimp only
            rw [if_neg hcg]
            exact oneReply_simple _ (by decide)
    rw [if_neg h12]
    by_cases h13 : strToUpper t0 = ascii "CLIENT"
    · rw [if_pos h13]
      exact oneReply_simple _ (by decide)
    rw [if_neg h13]
    exact oneReply_error _ hunk

/-- Witness for the amended C8. -/
theorem C8_no_panic_amended_witness :
    (∃ r, respParse (ascii "PING\r\n") = Except.ok r) ∧
    OneRespReply (execute (fun _ => 0) (fun _ => LoadResult.Miss) (fun _ _ => true)
      cmDefault (ascii "PING" :: [])).1.data :=
  ⟨C8_no_panic_amended.1 (ascii "PING\r\n") (by decide),
   C8_no_panic_amended.2 (fun _ => 0) (fun _ => LoadResult.Miss) (fun _ _ => true)
     cmDefault (ascii "PING") [] (by decide)⟩

/-- Counterexample to C8 as stated: on the buffer "*abc\r\n" the RESP
array header is fed to `std::stoi`, which throws
`std::invalid_argument`; `handle_client` has no handler, so the
process aborts instead of replying — parsing does not complete for
every byte string. -/
theorem C8_counterexample :
    respParse (ascii "*abc\r\n") = Except.error StoiErr.invalidArgument := by
  rfl

theorem leBytes_length (w n : Nat) : (leBytes w n).length = w := by
  induction w generalizing n with
  | zero => rfl
  | succ w ih => simp [leBytes, ih]

theorem leVal_leBytes (w n : Nat) : leVal (leBytes w n) = n % 256 ^ w := by
  induction w generalizing n with
  | zero => simp only [leBytes, leVal, pow_zero, Nat.mod_one]
  | succ w ih =>
    show (n % 256) % 256 + 256 * leVal (leBytes w (n / 256)) = n % 256 ^ (w + 1)
    rw [Nat.mod_mod_of_dvd _ (dvd_refl 256), ih,
      show (256 : Nat) ^ (w + 1) = 256 * 256 ^ w by ring, Nat.mod_mul]

theorem le32_length (n : Nat) : (le32 n).length = 4 := leBytes_length 4 n

theorem le64_length (n : Nat) : (le64 n).length = 8 := leBytes_length 8 n

theorem readLE_leBytes (w n : Nat) (rest : Str) :
    readLE w (leBytes w n ++ rest) = n % 256 ^ w := by
  rw [readLE, List.take_left' (leBytes_length w n), leVal_leBytes]

theorem readLE_le32 (n : Nat) (rest : Str) (h : n < 2 ^ 32) :
    readLE 4 (le32 n ++ rest) = n := by
  rw [le32, readLE_leBytes, Nat.mod_eq_of_lt (by norm_num at h ⊢; omega)]

theorem readLE_le64 (n : Nat) (rest : Str) (h : n < 2 ^ 64) :
    readLE 8 (le64 n ++ rest) = n := by
  rw [le64, readLE_leBytes, Nat.mod_eq_of_lt (by norm_num at h ⊢; omega)]

theorem crcStep_lt (crc c : Nat) (h : crc < 2 ^ 32) : crcStep crc c < 2 ^ 32 := by
  apply Nat.xor_lt_two_pow
  · calc crc / 2 ^ 8 ≤ crc := Nat.div_le_self _ _
      _ < 2 ^ 32 := h
  · exact Nat.mod_lt _ (by norm_num)

theorem foldl_crcStep_lt (data : Str) (crc : Nat) (h : crc < 2 ^ 32) :
    data.foldl crcStep crc < 2 ^ 32 := by
  induction data generalizing crc with
  | nil => exact h
  | cons c cs ih => exact ih _ (crcStep_lt _ _ h)

theorem computeCRC_lt (data : Str) : computeCRC data < 2 ^ 32 :=
  foldl_crcStep_lt data 0 (by norm_num)

theorem serialize_length (r : WALRecord) :
    (r.serialize).length = 17 + r.key.length + r.value.length := by
  simp [WALRecord.serialize, le64, le32, leBytes_length]
  omega

theorem byteToWALType_code (t : WALRecordType) : byteToWALType t.code = t := by
  cases t <;> rfl

theorem serialize_shape (r : WALRecord) :
    r.serialize = r.type.code :: (le64 r.sequence ++ (le32 r.key.length ++ (r.key ++
      (le32 r.value.length ++ r.value)))) := by
  simp [WALRecord.serialize]

theorem walDeserialize_concrete (t : WALRecordType) (key value : Str) (seq : Nat)
    (hk : key.length < 2 ^ 32) (hv : value.length < 2 ^ 32) (hs : seq < 2 ^ 64) :
    walDeserialize (t.code :: (le64 seq ++ (le32 key.length ++ (key ++
      (le32 value.length ++ value))))) = ⟨t, key, value, seq⟩ := by
  have hd1 : (t.code :: (le64 seq ++ (le32 key.length ++ (key ++
      (le32 value.length ++ value))))).drop 1 =
      le64 seq ++ (le32 key.length ++ (key ++ (le32 value.length ++ value))) := rfl
  have hd9 : (t.code :: (le64 seq ++ (le32 key.length ++ (key ++
      (le32 value.length ++ value))))).drop 9 =
      le32 key.length ++ (key ++ (le32 value.length ++ value)) := by
    rw [show (9 : Nat) = 1 + 8 from rfl, ← List.drop_drop, hd1,
      List.drop_left' (le64_length seq)]
  have hd13 : (t.code :: (le64 seq ++ (le32 key.length ++ (key ++
      (le32 value.length ++ value))))).drop 13 =
      key ++ (le32 value.length ++ value) := by
    rw [show (13 : Nat) = 9 + 4 from rfl, ← List.drop_drop, hd9,
      List.drop_left' (le32_length key.length)]
  have hdk : (t.code :: (le64 seq ++ (le32 key.length ++ (key ++
      (le32 value.length ++ value))))).drop (13 + key.length) =
      le32 value.length ++ value := by
    rw [← List.drop_drop, hd13, List.drop_left' rfl]
  have hd17 : (t.code :: (le64 seq ++ (le32 key.length ++ (key ++
      (le32 value.length ++ value))))).drop (17 + key.length) = value := by
    rw [show (17 + key.length) = 13 + key.length + 4 by omega, ← List.drop_drop, hdk,
      List.drop_left' (le32_length value.length)]
  have hklen : readLE 4 ((t.code :: (le64 seq ++ (le32 key.length ++ (key ++
      (le32 value.length ++ value))))).drop 9) = key.length := by
    rw [hd9]; exact readLE_le32 _ _ hk
  have hvlen : readLE 4 ((t.code :: (le64 seq ++ (le32 key.length ++ (key ++
      (le32 value.length ++ value))))).drop (13 + key.length)) = value.length := by
    rw [hdk]; exact readLE_le32 _ _ hv
  have hseq : readLE 8 ((t.code :: (le64 seq ++ (le32 key.length ++ (key ++
      (le32 value.length ++ value))))).drop 1) = seq := by
    rw [hd1]; exact readLE_le64 _ _ hs
  simp only [walDeserialize, hklen, hvlen, hd17, hd13, hseq, List.getD_cons_zero,
    byteToWALType_code]
  rw [List.take_left' rfl, List.take_length]

theorem walDeserialize_serialize (r : WALRecord)
    (hk : r.key.length < 2 ^ 32) (hv : r.value.length < 2 ^ 32)
    (hs : r.sequence < 2 ^ 64) :
    walDeserialize r.serialize = r := by
  rw [serialize_shape]
  exact walDeserialize_concrete r.type r.key r.value r.sequence hk hv hs

theorem writeFrame_shape (p : Str) :
    writeFrame p = le32 (computeCRC p) ++ (le32 p.length ++ p) := by
  simp [writeFrame]

theorem writeFrame_length (p : Str) : (writeFrame p).length = 8 + p.length := by
  simp only [writeFrame, List.length_append, le32_length]

theorem walReplayGo_frame (fuel : Nat) (p rest : Str)
    (hmin : 17 ≤ p.length) (hmax : p.length ≤ 64 * 1024 * 1024) :
    walReplayGo (fuel + 1) (writeFrame p ++ rest) =
      walDeserialize p :: walReplayGo fuel rest := by
  have hplen : p.length < 2 ^ 32 := by
    calc p.length ≤ 64 * 1024 * 1024 := hmax
      _ < 2 ^ 32 := by norm_num
  have hfile : writeFrame p ++ rest =
      le32 (computeCRC p) ++ (le32 p.length ++ (p ++ rest)) := by
    simp [writeFrame]
  have hlenfile : (writeFrame p ++ rest).length = 8 + p.length + rest.length := by
    simp only [List.length_append, writeFrame_length]
  have hcrc : readLE 4 (writeFrame p ++ rest) = computeCRC p := by
    rw [hfile]; exact readLE_le32 _ _ (computeCRC_lt p)
  have hdrop4 : (writeFrame p ++ rest).drop 4 = le32 p.length ++ (p ++ rest) := by
    rw [hfile, List.drop_left' (le32_length _)]
  have hlenfield : readLE 4 ((writeFrame p ++ rest).drop 4) = p.length := by
    rw [hdrop4]; exact readLE_le32 _ _ hplen
  have hdrop8 : (writeFrame p ++ rest).drop 8 = p ++ rest := by
    rw [show (8 : Nat) = 4 + 4 from rfl, ← List.drop_drop, hdrop4,
      List.drop_left' (le32_length _)]
  have hpayload : ((writeFrame p ++ rest).drop 8).take p.length = p := by
    rw [hdrop8, List.take_left' rfl]
  have hdropall : (writeFrame p ++ rest).drop (8 + p.length) = rest := by
    rw [← List.drop_drop, hdrop8, List.drop_left' rfl]
  simp only [walReplayGo, hcrc, hlenfield, hpayload, hdropall, hlenfile]
  rw [if_neg (by omega), if_neg (by omega), if_neg (by omega), if_neg (by simp)]

theorem walFile_cons (r : WALRecord) (rs : List WALRecord) :
    walFile (r :: rs) = writeFrame r.serialize ++ walFile rs := by
  simp [walFile]

theorem walFile_length_ge (recs : List WALRecord) :
    recs.length ≤ (walFile recs).length := by
  induction recs with
  | nil => simp [walFile]
  | cons r rs ih =>
    rw [walFile_cons]
    simp only [List.length_append, writeFrame_length, List.length_cons]
    omega

theorem walReplayGo_walFile (recs : List WALRecord)
    (h : ∀ r ∈ recs, r.key.length < 2 ^ 32 ∧ r.value.length < 2 ^ 32 ∧
      r.sequence < 2 ^ 64 ∧ 17 + r.key.length + r.value.length ≤ 64 * 1024 * 1024) :
    ∀ fuel, recs.length ≤ fuel → walReplayGo fuel (walFile recs) = recs := by
  induction recs with
  | nil =>
    intro fuel _
    cases fuel with
    | zero => rfl
    | succ n => simp [walFile, walReplayGo]
  | cons r rs ih =>
    intro fuel hf
    cases fuel with
    | zero => simp at hf
    | succ f =>
      obtain ⟨hk, hv, hs, hb⟩ := h r (by simp)
      have hmin : 17 ≤ (r.serialize).length := by rw [serialize_length]; omega
      have hmax : (r.serialize).length ≤ 64 * 1024 * 1024 := by
        rw [serialize_length]; omega
      rw [walFile_cons, walReplayGo_frame f _ _ hmin hmax,
        walDeserialize_serialize r hk hv hs,
        ih (fun x hx => h x (by simp [hx])) f (by simpa using hf)]

/-- Claim C3 (amended): WAL round-trip.  For every record sequence
whose individual frames are plausible to the reader — key and value
lengths below 2^32 (the serialized length fields are 32-bit) and
framed payload (17 + |key| + |value| bytes) at most 64 MiB (the
reader's corruption cutoff) — replaying the file written by
`append(r₁); …; append(rₙ); sync()` yields exactly r₁ … rₙ in order,
with type, key, value and sequence preserved, and the returned count
is n. -/
theorem C3_wal_roundtrip (recs : List WALRecord)
    (h : ∀ r ∈ recs, r.key.length < 2 ^ 32 ∧ r.value.length < 2 ^ 32 ∧
      r.sequence < 2 ^ 64 ∧ 17 + r.key.length + r.value.length ≤ 64 * 1024 * 1024) :
    walReplay (walFile recs) = recs ∧
    (walReplay (walFile recs)).length = recs.length := by
  have hmain := walReplayGo_walFile recs h (walFile recs).length (walFile_length_ge recs)
  exact ⟨hmain, by rw [walReplay, hmain]⟩

/-- Witness for the amended C3 at a concrete two-record log. -/
theorem C3_wal_roundtrip_witness :
    ((∀ r ∈ [(⟨WALRecordType.kPut, ascii "k", ascii "v", 0⟩ : WALRecord),
        ⟨WALRecordType.kDelete, ascii "k", [], 1⟩],
      r.key.length < 2 ^ 32 ∧ r.value.length < 2 ^ 32 ∧
      r.sequence < 2 ^ 64 ∧ 17 + r.key.length + r.value.length ≤ 64 * 1024 * 1024) ∧
     walReplay (walFile [⟨WALRecordType.kPut, ascii "k", ascii "v", 0⟩,
        ⟨WALRecordType.kDelete, ascii "k", [], 1⟩]) =
      [⟨WALRecordType.kPut, ascii "k", ascii "v", 0⟩,
       ⟨WALRecordType.kDelete, ascii "k", [], 1⟩]) :=
  ⟨by decide,
   (C3_wal_roundtrip [⟨WALRecordType.kPut, ascii "k", ascii "v", 0⟩,
      ⟨WALRecordType.kDelete, ascii "k", [], 1⟩] (by decide)).1⟩

theorem strLt_irrefl (s : Str) : strLt s s = false := by
  induction s with
  | nil => rfl
  | cons c cs ih => simp [strLt, ih]

theorem strLt_ne {a b : Str} (h : strLt a b = true) : a ≠ b := by
  intro hab
  rw [hab, strLt_irrefl] at h
  cases h

theorem strLt_eq_of_not (a b : Str) (h1 : strLt a b = false) (h2 : strLt b a = false) :
    a = b := by
  induction a generalizing b with
  | nil =>
    cases b with
    | nil => rfl
    | cons x xs => simp [strLt] at h1
  | cons c cs ih =>
    cases b with
    | nil => simp [strLt] at h2
    | cons x xs =>
      simp only [strLt] at h1 h2
      rcases Nat.lt_trichotomy c x with hc | hc | hc
      · rw [if_pos hc] at h1; cases h1
      · subst hc
        rw [if_neg (by omega), if_neg (by omega)] at h1 h2
        rw [ih _ h1 h2]
      · rw [if_pos hc] at h2; cases h2

theorem strLt_trans {a b c : Str} (h1 : strLt a b = true) (h2 : strLt b c = true) :
    strLt a c = true := by
  induction a generalizing b c with
  | nil =>
    cases c with
    | nil =>
      cases b with
      | nil => exact h2
      | cons y ys => simp [strLt] at h2
    | cons z zs => rfl
  | cons x xs ih =>
    cases b with
    | nil => simp [strLt] at h1
    | cons y ys =>
      cases c with
      | nil => simp [strLt] at h2
      | cons z zs =>
        simp only [strLt] at h1 h2 ⊢
        by_cases hxy : x < y
        · by_cases hyz : y < z
          · rw [if_pos (by omega)]
          · have hzy : ¬ z < y := by
              intro hzy
              rw [if_neg hyz, if_pos hzy] at h2
              cases h2
            have hyzeq : y = z := by omega
            subst hyzeq
            rw [if_pos hxy]
        · have hyx : ¬ y < x := by
            intro hyx
            rw [if_neg hxy, if_pos hyx] at h1
            cases h1
          have hxyeq : x = y := by omega
          subst hxyeq
          rw [if_neg hxy, if_neg hyx] at h1
          by_cases hxz : x < z
          · rw [if_pos hxz]
          · have hzx : ¬ z < x := by
              intro hzx
              rw [if_neg hxz, if_pos hzx] at h2
              cases h2
            rw [if_neg hxz, if_neg hzx] at h2 ⊢
            exact ih h1 h2

theorem ikLt_iff {a b : InternalKey} : ikLt a b = true ↔
    (strLt a.key b.key = true ∨ (a.key = b.key ∧ b.sequence < a.sequence)) := by
  unfold ikLt
  cases hab : strLt a.key b.key
  · cases hba : strLt b.key a.key
    · have hk : a.key = b.key := strLt_eq_of_not _ _ hab hba
      simp [hk]
    · simp only [if_false, if_true, Bool.false_eq_true, false_or]
      constructor
      · intro h; cases h
      · rintro ⟨hk, _⟩
        exact absurd (strLt_ne hba) (by rw [hk]; exact fun h => h rfl)
  · simp

theorem ikLt_trans {a b c : InternalKey} (h1 : ikLt a b = true) (h2 : ikLt b c = true) :
    ikLt a c = true := by
  rw [ikLt_iff] at h1 h2 ⊢
  rcases h1 with h1 | ⟨hk1, hs1⟩
  · rcases h2 with h2 | ⟨hk2, _⟩
    · exact Or.inl (strLt_trans h1 h2)
    · exact Or.inl (hk2 ▸ h1)
  · rcases h2 with h2 | ⟨hk2, hs2⟩
    · exact Or.inl (hk1 ▸ h2)
    · exact Or.inr ⟨hk1.trans hk2, by omega⟩

theorem ik_trichotomy (a b : InternalKey) :
    ikLt a b = true ∨ ikEq a b = true ∨ ikLt b a = true := by
  cases hab : strLt a.key b.key
  · cases hba : strLt b.key a.key
    · have hk : a.key = b.key := strLt_eq_of_not _ _ hab hba
      rcases Nat.lt_trichotomy a.sequence b.sequence with hs | hs | hs
      · right; right; rw [ikLt_iff]; exact Or.inr ⟨hk.symm, hs⟩
      · right; left; simp [ikEq, hk, hs]
      · left; rw [ikLt_iff]; exact Or.inr ⟨hk, hs⟩
    · right; right; rw [ikLt_iff]; exact Or.inl hba
  · left; rw [ikLt_iff]; exact Or.inl hab

theorem chain_rel_of_mem {l : List MTEntry} {a : MTEntry}
    (h : List.Chain' (fun x y => ikLt x.ikey y.ikey = true) (a :: l)) :
    ∀ x ∈ l, ikLt a.ikey x.ikey = true := by
  induction l generalizing a with
  | nil => intro x hx; cases hx
  | cons b l ih =>
    intro x hx
    have hab : ikLt a.ikey b.ikey = true := (List.chain'_cons.mp h).1
    rcases List.mem_cons.mp hx with rfl | hx
    · exact hab
    · exact ikLt_trans hab (ih (List.chain'_cons.mp h).2 x hx)

theorem mtInsert_head (es : List MTEntry) (ik : InternalKey) (v : Str) :
    ∀ f ∈ (mtInsert es ik v).head?,
      f.ikey = ik ∨ ∃ e ∈ es.head?, f.ikey = e.ikey := by
  cases es with
  | nil =>
    intro f hf
    simp [mtInsert] at hf
    exact Or.inl (by rw [← hf])
  | cons e es =>
    intro f hf
    cases h1 : ikLt e.ikey ik <;> cases h2 : ikEq e.ikey ik <;>
      simp only [mtInsert, h1, h2, if_true, if_false, Bool.false_eq_true,
        Bool.true_eq_false, List.head?_cons, Option.mem_def, Option.some.injEq] at hf <;>
      subst hf <;> simp

theorem mtInsert_chain (es : List MTEntry) (ik : InternalKey) (v : Str)
    (h : List.Chain' (fun x y => ikLt x.ikey y.ikey = true) es) :
    List.Chain' (fun x y => ikLt x.ikey y.ikey = true) (mtInsert es ik v) := by
  induction es with
  | nil => simp [mtInsert]
  | cons e es ih =>
    have htl := (List.chain'_cons'.mp h).2
    have hhd := (List.chain'_cons'.mp h).1
    cases h1 : ikLt e.ikey ik
    · cases h2 : ikEq e.ikey ik
      · have hlt : ikLt ik e.ikey = true := by
          rcases ik_trichotomy e.ikey ik with h' | h' | h'
          · rw [h1] at h'; cases h'
          · rw [h2] at h'; cases h'
          · exact h'
        simp only [mtInsert, h1, h2, Bool.false_eq_true, if_false]
        exact List.chain'_cons.mpr ⟨hlt, h⟩
      · simp only [mtInsert, h1, h2, Bool.false_eq_true, if_false, if_true]
        exact List.chain'_cons'.mpr ⟨hhd, htl⟩
    · simp only [mtInsert, h1, if_true]
      refine List.chain'_cons'.mpr ⟨?_, ih htl⟩
      intro f hf
      rcases mtInsert_head es ik v f hf with hfik | ⟨e', he', hfe⟩
      · rw [hfik]; exact h1
      · rw [hfe]; exact hhd e' he'

theorem mtInsert_ikey_mem (es : List MTEntry) (ik : InternalKey) (v : Str) :
    ∀ f ∈ mtInsert es ik v, f.ikey = ik ∨ ∃ e ∈ es, f.ikey = e.ikey := by
  induction es with
  | nil =>
    intro f hf
    simp [mtInsert] at hf
    subst hf
    exact Or.inl rfl
  | cons e es ih =>
    intro f hf
    cases h1 : ikLt e.ikey ik
    · cases h2 : ikEq e.ikey ik
      · simp only [mtInsert, h1, h2, Bool.false_eq_true, if_false] at hf
        rcases List.mem_cons.mp hf with rfl | hf
        · exact Or.inl rfl
        · rcases List.mem_cons.mp hf with rfl | hf
          · exact Or.inr ⟨f, by simp⟩
          · exact Or.inr ⟨f, by simp [hf]⟩
      · simp only [mtInsert, h1, h2, Bool.false_eq_true, if_false, if_true] at hf
        rcases List.mem_cons.mp hf with rfl | hf
        · exact Or.inr ⟨e, by simp⟩
        · exact Or.inr ⟨f, by simp [hf]⟩
    · simp only [mtInsert, h1, if_true] at hf
      rcases List.mem_cons.mp hf with rfl | hf
      · exact Or.inr ⟨f, by simp⟩
      · rcases ih f hf with h | ⟨e', he', hfe⟩
        · exact Or.inl h
        · exact Or.inr ⟨e', by simp [he'], hfe⟩

theorem mtBuild_aux_sorted (ops : List MTOp) :
    ∀ es, List.Chain' (fun x y => ikLt x.ikey y.ikey = true) es →
      List.Chain' (fun x y => ikLt x.ikey y.ikey = true) (ops.foldl mtApply es) := by
  induction ops with
  | nil => exact fun es h => h
  | cons op ops ih =>
    intro es h
    cases op with
    | put k v s => exact ih _ (mtInsert_chain _ _ _ h)
    | del k s => exact ih _ (mtInsert_chain _ _ _ h)

theorem mtBuild_sorted (ops : List MTOp) :
    List.Chain' (fun x y => ikLt x.ikey y.ikey = true) (mtBuild ops) :=
  mtBuild_aux_sorted ops [] (by simp)

theorem mtBuild_aux_seq_bound (ops : List MTOp)
    (h : ∀ op ∈ ops, op.seq < 2 ^ 64) :
    ∀ es, (∀ e ∈ es, e.ikey.sequence < 2 ^ 64) →
      ∀ e ∈ ops.foldl mtApply es, e.ikey.sequence < 2 ^ 64 := by
  induction ops with
  | nil => exact fun es hes => hes
  | cons op ops ih =>
    intro es hes
    have hop : op.seq < 2 ^ 64 := h op (by simp)
    have hops : ∀ o ∈ ops, MTOp.seq o < 2 ^ 64 := fun o ho => h o (by simp [ho])
    refine ih hops _ ?_
    intro f hf
    cases op with
    | put k v s =>
      rcases mtInsert_ikey_mem _ _ _ f hf with hik | ⟨e', he', hfe⟩
      · rw [hik]; exact hop
      · rw [hfe]; exact hes e' he'
    | del k s =>
      rcases mtInsert_ikey_mem _ _ _ f hf with hik | ⟨e', he', hfe⟩
      · rw [hik]; exact hop
      · rw [hfe]; exact hes e' he'

theorem mtBuild_seq_bound (ops : List MTOp) (h : ∀ op ∈ ops, op.seq < 2 ^ 64) :
    ∀ e ∈ mtBuild ops, e.ikey.sequence < 2 ^ 64 :=
  mtBuild_aux_seq_bound ops h [] (by simp)

theorem head_of_eq_cons {α : Type} {l : List α} {a : α} {t : List α}
    (hl : l = a :: t) (h : l ≠ []) : l.head h = a := by
  subst hl
  rfl

theorem mtGet_spec (es : List MTEntry) (k : Str)
    (hs : List.Chain' (fun x y => ikLt x.ikey y.ikey = true) es)
    (hb : ∀ e ∈ es, e.ikey.sequence < 2 ^ 64) :
    (mtKeyEntries es k = [] → mtGet es k = ⟨false, [], false⟩) ∧
    (∀ hne : mtKeyEntries es k ≠ [],
      mtGet es k = ⟨true, ((mtKeyEntries es k).head hne).value,
        decide (((mtKeyEntries es k).head hne).ikey.type = ValueType.kDeletion)⟩ ∧
      ∀ e ∈ mtKeyEntries es k,
        e.ikey.sequence ≤ ((mtKeyEntries es k).head hne).ikey.sequence) := by
  induction es with
  | nil => exact ⟨fun _ => rfl, fun hne => absurd rfl hne⟩
  | cons e tl ih =>
    have hbe : e.ikey.sequence < 2 ^ 64 := hb e (by simp)
    have hbtl : ∀ x ∈ tl, x.ikey.sequence < 2 ^ 64 := fun x hx => hb x (by simp [hx])
    have hstl := (List.chain'_cons'.mp hs).2
    by_cases hklt : strLt e.ikey.key k = true
    · have hdrop : ikLt e.ikey ⟨k, 2 ^ 64 - 1, .kValue⟩ = true := by
        rw [ikLt_iff]; exact Or.inl hklt
      have hnek : ¬ (e.ikey.key = k) := strLt_ne hklt
      have hfe : mtKeyEntries (e :: tl) k = mtKeyEntries tl k := by
        simp [mtKeyEntries, List.filter_cons, hnek]
      have hge : mtGet (e :: tl) k = mtGet tl k := by
        simp only [mtGet, List.dropWhile_cons, hdrop, if_true]
      rw [hfe, hge]
      exact ih hstl hbtl
    · have hstop : ikLt e.ikey ⟨k, 2 ^ 64 - 1, .kValue⟩ = false := by
        cases hc : ikLt e.ikey ⟨k, 2 ^ 64 - 1, .kValue⟩
        · rfl
        · exfalso
          rw [ikLt_iff] at hc
          rcases hc with hc | ⟨_, hc⟩
          · exact hklt hc
          · simp only at hc; omega
      have hrest : (e :: tl).dropWhile
          (fun x => ikLt x.ikey ⟨k, 2 ^ 64 - 1, .kValue⟩) = e :: tl := by
        rw [List.dropWhile_cons, if_neg (by rw [hstop]; exact Bool.false_ne_true)]
      by_cases hk : e.ikey.key = k
      · have hfe : mtKeyEntries (e :: tl) k = e :: mtKeyEntries tl k := by
          simp [mtKeyEntries, List.filter_cons, hk]
        have hget : mtGet (e :: tl) k =
            ⟨true, e.value, decide (e.ikey.type = ValueType.kDeletion)⟩ := by
          simp only [mtGet, hrest]
          rw [if_pos hk]
        constructor
        · intro hnil
          rw [hfe] at hnil
          cases hnil
        · intro hne
          have hhead : (mtKeyEntries (e :: tl) k).head hne = e :=
            head_of_eq_cons hfe hne
          constructor
          · rw [hget, hhead]
          · intro x hx
            rw [hfe] at hx
            rw [hhead]
            rcases List.mem_cons.mp hx with rfl | hx
            · exact Nat.le_refl _
            · have hxtl : x ∈ tl := List.mem_of_mem_filter hx
              have hrel : ikLt e.ikey x.ikey = true := chain_rel_of_mem hs x hxtl
              have hxk : x.ikey.key = k := by
                have := (List.mem_filter.mp hx).2
                simpa using this
              rw [ikLt_iff] at hrel
              rcases hrel with h | ⟨_, hseq⟩
              · exact absurd (hk.trans hxk.symm) (strLt_ne h)
              · omega
      · have hkltf : strLt e.ikey.key k = false := by
          cases hcc : strLt e.ikey.key k
          · rfl
          · exact absurd hcc hklt
        have hkgt : strLt k e.ikey.key = true := by
          cases hba : strLt k e.ikey.key
          · exact absurd (strLt_eq_of_not _ _ hkltf hba) hk
          · rfl
        have hfe : mtKeyEntries (e :: tl) k = mtKeyEntries tl k := by
          simp [mtKeyEntries, List.filter_cons, hk]
        have hftl : mtKeyEntries tl k = [] := by
          rw [mtKeyEntries, List.filter_eq_nil_iff]
          intro x hx
          have hrel := chain_rel_of_mem hs x hx
          rw [ikLt_iff] at hrel
          simp only [decide_eq_true_eq]
          rcases hrel with h | ⟨hkeq, _⟩
          · intro hxk
            exact strLt_ne (strLt_trans hkgt h) hxk.symm
          · intro hxk
            exact hk (hkeq ▸ hxk)
        have hget : mtGet (e :: tl) k = ⟨false, [], false⟩ := by
          simp only [mtGet, hrest]
          rw [if_neg hk]
        exact ⟨fun _ => hget, fun hne => absurd (by rw [hfe, hftl]) hne⟩

theorem applierDrainGo_spec (entries : List LogEntry) :
    ∀ n la, (∀ i ∈ List.range' (la + 1) n, (raftGetEntry entries i).isSome) →
      (applierDrainGo entries n la (la + n)).map Prod.fst = List.range' (la + 1) n := by
  intro n
  induction n with
  | zero => intro la _; rfl
  | succ n ih =>
    intro la hfull
    have hsome : (raftGetEntry entries (la + 1)).isSome :=
      hfull (la + 1) (by simp [List.range'])
    obtain ⟨e, he⟩ := Option.isSome_iff_exists.mp hsome
    have hidx : e.index = la + 1 := by
      have := List.find?_some he
      simpa using this
    have harith : la + (n + 1) = (la + 1) + n := by omega
    simp only [applierDrainGo, he]
    rw [if_pos (by omega)]
    simp only [List.map_cons, hidx]
    have htail : ∀ i ∈ List.range' (la + 1 + 1) n, (raftGetEntry entries i).isSome := by
      intro i hi
      exact hfull i (by rw [List.range'_succ]; exact List.mem_cons_of_mem _ hi)
    have := ih (la + 1) htail
    rw [harith, this, List.range'_succ]

/-- Claim C9: only a Leader accepts a proposal — `Propose` on a
non-leader returns false and leaves the state (in particular the log)
unchanged — and one applier wake-up applies the committed entries in
strictly increasing, gapless index order: the indices passed to the
apply callback are exactly `last_applied+1, …, commit_index`, and
`last_applied` ends at `commit_index`. -/
theorem C9_raft_propose_apply_order (s : RaftState) (cmd : Str)
    (hfull : ∀ i ∈ List.range' (s.lastApplied + 1) (s.commitIndex - s.lastApplied),
      (raftGetEntry s.entries i).isSome) :
    (s.role ≠ RaftRole.leader → raftPropose s cmd = (false, s)) ∧
    ((raftPropose s cmd).1 = true → s.role = RaftRole.leader) ∧
    (applierDrain s).1.map Prod.fst =
      List.range' (s.lastApplied + 1) (s.commitIndex - s.lastApplied) ∧
    (applierDrain s).2.lastApplied = max s.lastApplied s.commitIndex := by
  refine ⟨?_, ?_, ?_, ?_⟩
  · intro h
    simp [raftPropose, h]
  · intro h1
    by_cases h : s.role = RaftRole.leader
    · exact h
    · rw [show raftPropose s cmd = (false, s) by simp [raftPropose, h]] at h1
      cases h1
  · by_cases hle : s.lastApplied < s.commitIndex
    · have harith : s.commitIndex = s.lastApplied + (s.commitIndex - s.lastApplied) := by
        omega
      have := applierDrainGo_spec s.entries (s.commitIndex - s.lastApplied)
        s.lastApplied hfull
      simp only [applierDrain]
      rw [show applierDrainGo s.entries (s.commitIndex - s.lastApplied) s.lastApplied
          s.commitIndex = applierDrainGo s.entries (s.commitIndex - s.lastApplied)
          s.lastApplied (s.lastApplied + (s.commitIndex - s.lastApplied)) by rw [← harith]]
      exact this
    · have hz : s.commitIndex - s.lastApplied = 0 := by omega
      simp [applierDrain, hz, applierDrainGo, List.range']
  · have hproj : (applierDrain s).2.lastApplied =
        if s.lastApplied < s.commitIndex then s.commitIndex else s.lastApplied := rfl
    rw [hproj]
    by_cases hle : s.lastApplied < s.commitIndex
    · rw [if_pos hle]; omega
    · rw [if_neg hle]; omega

/-- Witness for C9: a follower rejects a proposal; committed entries
at indices 1 and 2 are applied in order. -/
theorem C9_raft_propose_apply_order_witness :
    (∀ i ∈ List.range' (0 + 1) (2 - 0),
      (raftGetEntry [⟨1, 1, ascii "x"⟩, ⟨1, 2, ascii "y"⟩] i).isSome) ∧
    (raftPropose ⟨RaftRole.follower, 1, 2, 0, [⟨1, 1, ascii "x"⟩, ⟨1, 2, ascii "y"⟩]⟩
      (ascii "c") =
      (false, ⟨RaftRole.follower, 1, 2, 0, [⟨1, 1, ascii "x"⟩, ⟨1, 2, ascii "y"⟩]⟩)) ∧
    (applierDrain ⟨RaftRole.follower, 1, 2, 0,
      [⟨1, 1, ascii "x"⟩, ⟨1, 2, ascii "y"⟩]⟩).1.map Prod.fst = List.range' (0 + 1) (2 - 0) :=
  ⟨by decide,
   (C9_raft_propose_apply_order ⟨RaftRole.follower, 1, 2, 0,
      [⟨1, 1, ascii "x"⟩, ⟨1, 2, ascii "y"⟩]⟩ (ascii "c") (by decide)).1 (by decide),
   (C9_raft_propose_apply_order ⟨RaftRole.follower, 1, 2, 0,
      [⟨1, 1, ascii "x"⟩, ⟨1, 2, ascii "y"⟩]⟩ (ascii "c") (by decide)).2.2.1⟩

/-- Claim C6: `MemTable::Get(K)` returns the stored entry with the
largest sequence number among all entries for user key `K` (not found
when none exists), and reports `deleted = true` exactly when that
newest entry is a `kDeletion` tombstone. -/
theorem C6_memtable_get_newest (ops : List MTOp) (k : Str)
    (hseq : ∀ op ∈ ops, op.seq < 2 ^ 64) :
    (mtKeyEntries (mtBuild ops) k = [] → mtGet (mtBuild ops) k = ⟨false, [], false⟩) ∧
    (∀ hne : mtKeyEntries (mtBuild ops) k ≠ [],
      mtGet (mtBuild ops) k =
        ⟨true, ((mtKeyEntries (mtBuild ops) k).head hne).value,
          decide (((mtKeyEntries (mtBuild ops) k).head hne).ikey.type =
            ValueType.kDeletion)⟩ ∧
      ∀ e ∈ mtKeyEntries (mtBuild ops) k,
        e.ikey.sequence ≤ ((mtKeyEntries (mtBuild ops) k).head hne).ikey.sequence) :=
  mtGet_spec _ _ (mtBuild_sorted ops) (mtBuild_seq_bound ops hseq)

/-- Witness for C6: two puts then a delete of the same key; the newest
entry is the tombstone. -/
theorem C6_memtable_get_newest_witness :
    ((∀ op ∈ [MTOp.put (ascii "a") (ascii "1") 0, MTOp.put (ascii "a") (ascii "2") 1,
        MTOp.del (ascii "a") 2], op.seq < 2 ^ 64) ∧
     (mtKeyEntries (mtBuild [MTOp.put (ascii "a") (ascii "1") 0,
        MTOp.put (ascii "a") (ascii "2") 1, MTOp.del (ascii "a") 2]) (ascii "a") ≠ []) ∧
     mtGet (mtBuild [MTOp.put (ascii "a") (ascii "1") 0,
        MTOp.put (ascii "a") (ascii "2") 1, MTOp.del (ascii "a") 2]) (ascii "a") =
       ⟨true, [], true⟩) := by
  refine ⟨by decide, by decide, ?_⟩
  have h := (C6_memtable_get_newest [MTOp.put (ascii "a") (ascii "1") 0,
    MTOp.put (ascii "a") (ascii "2") 1, MTOp.del (ascii "a") 2] (ascii "a")
    (by decide)).2 (by decide)
  rw [h.1]
  decide

theorem bigVal_length : bigVal.length = 67108848 := by
  rw [bigVal]
  exact List.length_replicate 67108848 0

theorem walReplayGo_stop_big (fuel : Nat) (file : Str)
    (h8 : ¬ file.length < 8) (hbig : 64 * 1024 * 1024 < readLE 4 (file.drop 4)) :
    walReplayGo fuel file = [] := by
  cases fuel with
  | zero => rfl
  | succ f =>
    simp only [walReplayGo]
    rw [if_neg h8, if_pos (Or.inr hbig)]

/-- Counterexample to C3 as stated: the single `Put` record `bigRec`
(empty key, 67,108,848-byte value) serializes to a 67,108,865-byte
payload; the frame is written in full, but `Replay` rejects any length
field above 64 MiB as corruption and stops, invoking the callback on
nothing and returning 0 — so the round-trip fails for this record
sequence. -/
theorem C3_counterexample : walReplay (walFile [bigRec]) ≠ [bigRec] := by
  have hplen : (WALRecord.serialize bigRec).length = 67108865 := by
    rw [serialize_length, show bigRec.key = [] from rfl,
      show bigRec.value = bigVal from rfl, bigVal_length]
    simp
  have hfile : walFile [bigRec] = writeFrame (WALRecord.serialize bigRec) := by
    simp only [walFile, List.map_cons, List.map_nil, List.flatten_cons,
      List.flatten_nil, List.append_nil]
  have h8 : ¬ (writeFrame (WALRecord.serialize bigRec)).length < 8 := by
    rw [writeFrame_length, hplen]
    omega
  have hfield : readLE 4 ((writeFrame (WALRecord.serialize bigRec)).drop 4) =
      67108865 := by
    rw [writeFrame_shape, List.drop_left' (le32_length _), hplen, le32, readLE_leBytes]
    norm_num
  have hbig : 64 * 1024 * 1024 <
      readLE 4 ((writeFrame (WALRecord.serialize bigRec)).drop 4) := by
    rw [hfield]; norm_num
  rw [walReplay, hfile, walReplayGo_stop_big _ _ h8 hbig]
  simp

/-- Witness for C5 at a concrete two-entry shard. -/
theorem C5_lru_eviction_order_witness :
    (((⟨2, [⟨ascii "c", ascii "3", true⟩, ⟨ascii "a", ascii "1", true⟩]⟩ : LRUCache).entries.length = 2) ∧
      ((LRUCache.put ⟨2, [⟨ascii "c", ascii "3", true⟩, ⟨ascii "a", ascii "1", true⟩]⟩
        (ascii "d") (ascii "4")).2.map CacheEntry.key = [ascii "a"])) :=
  ⟨by decide,
   (C5_lru_eviction_order ⟨2, [⟨ascii "c", ascii "3", true⟩, ⟨ascii "a", ascii "1", true⟩]⟩
      (ascii "a") (ascii "d") (ascii "4")
      (by decide) (by decide) (by decide) (by decide)).1⟩

-- ───────────────────────────────────────────────────────────────────
-- SSTable: data-record lemmas
-- ───────────────────────────────────────────────────────────────────

theorem encodeKV_length (k v : Str) :
    (encodeKV k v).length = 8 + k.length + v.length := by
  simp only [encodeKV, List.length_append, le32_length]
  omega

theorem readKVAt_spec (pre post k v : Str)
    (hk : k.length < 2 ^ 32) (hv : v.length < 2 ^ 32) :
    readKVAt (pre ++ (encodeKV k v ++ post)) ⟨pre.length, (encodeKV k v).length⟩ k =
      some v := by
  have h0 : (pre ++ (encodeKV k v ++ post)).drop pre.length = encodeKV k v ++ post :=
    List.drop_left' rfl
  have hklen : readLE 4 ((pre ++ (encodeKV k v ++ post)).drop pre.length) = k.length := by
    rw [h0]
    simp only [encodeKV, List.append_assoc]
    exact readLE_le32 _ _ hk
  have hkey : ((pre ++ (encodeKV k v ++ post)).drop (pre.length + 4)).take k.length
      = k := by
    rw [← List.drop_drop, h0]
    simp only [encodeKV, List.append_assoc]
    rw [List.drop_left' (le32_length _), List.take_left' rfl]
  have hvlen : readLE 4 ((pre ++ (encodeKV k v ++ post)).drop
      (pre.length + 4 + k.length)) = v.length := by
    rw [← List.drop_drop, ← List.drop_drop, h0]
    simp only [encodeKV, List.append_assoc]
    rw [List.drop_left' (le32_length _), List.drop_left' rfl]
    exact readLE_le32 _ _ hv
  have hval : ((pre ++ (encodeKV k v ++ post)).drop
      (pre.length + 8 + k.length)).take v.length = v := by
    rw [show pre.length + 8 + k.length = pre.length + 4 + k.length + 4 by omega,
      ← List.drop_drop, ← List.drop_drop, ← List.drop_drop, h0]
    simp only [encodeKV, List.append_assoc]
    rw [List.drop_left' (le32_length _), List.drop_left' rfl,
      List.drop_left' (le32_length _), List.take_left' rfl]
  have hlen : ¬ (pre ++ (encodeKV k v ++ post)).length <
      pre.length + 8 + k.length + v.length := by
    simp only [List.length_append, encodeKV_length]
    omega
  simp only [readKVAt]
  rw [hklen, hkey, hvlen, hval, if_neg (fun h => h rfl), if_neg hlen]

-- ───────────────────────────────────────────────────────────────────
-- SSTable: writer record-layout lemmas
-- ───────────────────────────────────────────────────────────────────

theorem buildRecords_fst (l : List KV) (off : Nat) :
    (buildRecords l off).map Prod.fst = l := by
  induction l generalizing off with
  | nil => rfl
  | cons kv rest ih => simp [buildRecords, ih]

theorem buildRecords_mem_of_mem (l : List KV) (off : Nat) (kv : KV) (h : kv ∈ l) :
    ∃ bh, (kv, bh) ∈ buildRecords l off := by
  induction l generalizing off with
  | nil => cases h
  | cons e rest ih =>
    rcases List.mem_cons.mp h with rfl | h
    · exact ⟨_, List.mem_cons_self _ _⟩
    · obtain ⟨bh, hb⟩ := ih (off + (encodeKV e.key e.value).length) h
      exact ⟨bh, List.mem_cons_of_mem _ hb⟩

theorem recordsBytes_cons (kv : KV) (bh : BlockHandle) (rest : List (KV × BlockHandle)) :
    recordsBytes ((kv, bh) :: rest) = encodeKV kv.key kv.value ++ recordsBytes rest := by
  simp [recordsBytes]

theorem buildRecords_mem_decomp (l : List KV) (off : Nat) (kv : KV) (bh : BlockHandle)
    (h : (kv, bh) ∈ buildRecords l off) :
    bh.size = (encodeKV kv.key kv.value).length ∧
    ∃ pre post,
      recordsBytes (buildRecords l off) = pre ++ (encodeKV kv.key kv.value ++ post) ∧
      off + pre.length = bh.offset := by
  induction l generalizing off with
  | nil => cases h
  | cons e rest ih =>
    simp only [buildRecords, List.mem_cons] at h
    rcases h with h | h
    · rw [Prod.mk.injEq] at h
      obtain ⟨h1, h2⟩ := h
      subst h1
      subst h2
      refine ⟨rfl, [], recordsBytes (buildRecords rest (off + (encodeKV kv.key kv.value).length)), ?_, ?_⟩
      · rw [buildRecords, recordsBytes_cons, List.nil_append]
      · rfl
    · obtain ⟨hsize, pre, post, heq, hoff⟩ := ih (off + (encodeKV e.key e.value).length) h
      refine ⟨hsize, encodeKV e.key e.value ++ pre, post, ?_, ?_⟩
      · rw [buildRecords, recordsBytes_cons, heq, List.append_assoc]
      · rw [List.length_append] at *
        omega

-- ───────────────────────────────────────────────────────────────────
-- SSTable: insertion-sort permutation lemmas
-- ───────────────────────────────────────────────────────────────────

theorem kvInsert_perm (kv : KV) (l : List KV) :
    List.Perm (kvInsert kv l) (kv :: l) := by
  induction l with
  | nil => exact List.Perm.refl _
  | cons e es ih =>
    by_cases h : strLt kv.key e.key
    · rw [kvInsert, if_pos h]
    · rw [kvInsert, if_neg h]
      exact (List.Perm.cons e ih).trans (List.Perm.swap kv e es)

theorem sortKV_perm (l : List KV) : List.Perm (sortKV l) l := by
  induction l with
  | nil => exact List.Perm.refl []
  | cons e es ih => exact (kvInsert_perm e (sortKV es)).trans (List.Perm.cons e ih)

-- ───────────────────────────────────────────────────────────────────
-- SSTable: index (unordered_map) lemmas
-- ───────────────────────────────────────────────────────────────────

theorem assocFind_assocSet_self (l : List (Str × BlockHandle)) (k : Str) (bh : BlockHandle) :
    assocFind (assocSet l k bh) k = some bh := by
  induction l with
  | nil => simp [assocSet, assocFind]
  | cons e es ih =>
    by_cases h : e.1 = k
    · rw [assocSet, if_pos h, assocFind, if_pos rfl]
    · rw [assocSet, if_neg h, assocFind, if_neg h]
      exact ih

theorem assocFind_assocSet_ne (l : List (Str × BlockHandle)) (k k' : Str)
    (bh : BlockHandle) (h : k' ≠ k) :
    assocFind (assocSet l k bh) k' = assocFind l k' := by
  induction l with
  | nil => simp [assocSet, assocFind, Ne.symm h]
  | cons e es ih =>
    by_cases he : e.1 = k
    · rw [assocSet, if_pos he, assocFind, if_neg (Ne.symm h), assocFind, if_neg]
      rw [he]
      exact Ne.symm h
    · rw [assocSet, if_neg he]
      by_cases he' : e.1 = k'
      · rw [assocFind, if_pos he', assocFind, if_pos he']
      · rw [assocFind, if_neg he', assocFind, if_neg he']
        exact ih

theorem assocFind_foldl_not_mem (ies : List (Str × BlockHandle))
    (acc : List (Str × BlockHandle)) (k : Str) (h : ∀ e ∈ ies, e.1 ≠ k) :
    assocFind (ies.foldl (fun a e => assocSet a e.1 e.2) acc) k = assocFind acc k := by
  induction ies generalizing acc with
  | nil => rfl
  | cons e rest ih =>
    rw [List.foldl_cons, ih _ (fun x hx => h x (List.mem_cons_of_mem _ hx)),
      assocFind_assocSet_ne]
    exact Ne.symm (h e (List.mem_cons_self _ _))

theorem assocFind_foldl_mem (ies : List (Str × BlockHandle))
    (acc : List (Str × BlockHandle)) (k : Str) (bh : BlockHandle)
    (hnd : (ies.map Prod.fst).Nodup) (h : (k, bh) ∈ ies) :
    assocFind (ies.foldl (fun a e => assocSet a e.1 e.2) acc) k = some bh := by
  induction ies generalizing acc with
  | nil => cases h
  | cons e rest ih =>
    rcases List.mem_cons.mp h with rfl | h
    · rw [List.foldl_cons, assocFind_foldl_not_mem]
      · exact assocFind_assocSet_self _ _ _
      · intro x hx hxk
        have : k ∈ rest.map Prod.fst := hxk ▸ List.mem_map_of_mem Prod.fst hx
        exact (List.nodup_cons.mp hnd).1 this
    · rw [List.foldl_cons]
      exact ih _ (List.nodup_cons.mp hnd).2 h

-- ───────────────────────────────────────────────────────────────────
-- SSTable: bloom-filter bit lemmas
-- ───────────────────────────────────────────────────────────────────

theorem bytesGetD_set_eq (l : List Nat) (i a : Nat) (h : i < l.length) :
    (l.set i a).getD i 0 = a := by
  induction l generalizing i with
  | nil => cases h
  | cons x xs ih =>
    cases i with
    | zero => rfl
    | succ j => exact ih j (Nat.lt_of_succ_lt_succ h)

theorem bytesGetD_set_ne (l : List Nat) (i j a : Nat) (h : i ≠ j) :
    (l.set i a).getD j 0 = l.getD j 0 := by
  induction l generalizing i j with
  | nil => rfl
  | cons x xs ih =>
    cases i with
    | zero =>
      cases j with
      | zero => exact absurd rfl h
      | succ j' => rfl
    | succ i' =>
      cases j with
      | zero => rfl
      | succ j' => exact ih i' j' (fun hh => h (by rw [hh]))

theorem bytesGetD_big (l : List Nat) (j : Nat) (h : l.length ≤ j) :
    l.getD j 0 = 0 := by
  induction l generalizing j with
  | nil => rfl
  | cons x xs ih =>
    cases j with
    | zero => exact (Nat.not_succ_le_zero _ h).elim
    | succ j' => exact ih j' (Nat.le_of_succ_le_succ h)

theorem land_two_pow_ne_zero_iff (x i : Nat) :
    Nat.land x (2 ^ i) ≠ 0 ↔ x.testBit i = true := by
  have h : Nat.land x (2 ^ i) = (x.testBit i).toNat * 2 ^ i := Nat.and_two_pow x i
  rw [h]
  cases hb : x.testBit i <;> simp

theorem getBit_iff (bs : List Nat) (h : Nat) :
    getBit bs h = true ↔ (bs.getD (h / 8) 0).testBit (h % 8) = true := by
  rw [getBit, decide_eq_true_iff]
  exact land_two_pow_ne_zero_iff _ _

theorem getBit_setBit_self (bs : List Nat) (h : Nat) (hlt : h / 8 < bs.length) :
    getBit (setBit bs h) h = true := by
  rw [getBit_iff, setBit, bytesGetD_set_eq _ _ _ hlt]
  rw [show Nat.lor (bs.getD (h / 8) 0) (2 ^ (h % 8)) =
      (bs.getD (h / 8) 0) ||| (2 ^ (h % 8)) from rfl, Nat.testBit_or,
    Nat.testBit_two_pow_self, Bool.or_true]

theorem getBit_setBit_mono (bs : List Nat) (p h : Nat) (hp : getBit bs p = true) :
    getBit (setBit bs h) p = true := by
  rw [getBit_iff] at hp ⊢
  rw [setBit]
  by_cases hij : h / 8 = p / 8
  · by_cases hin : h / 8 < bs.length
    · rw [hij] at hin ⊢
      rw [bytesGetD_set_eq _ _ _ hin]
      rw [show Nat.lor (bs.getD (p / 8) 0) (2 ^ (h % 8)) =
          (bs.getD (p / 8) 0) ||| (2 ^ (h % 8)) from rfl, Nat.testBit_or, hp,
        Bool.true_or]
    · rw [hij] at hin
      have h0 : bs.getD (p / 8) 0 = 0 := bytesGetD_big _ _ (Nat.le_of_not_lt hin)
      rw [h0, Nat.zero_testBit] at hp
      cases hp
  · rw [bytesGetD_set_ne _ _ _ _ hij]
    exact hp

theorem setBit_length (bs : List Nat) (h : Nat) :
    (setBit bs h).length = bs.length := List.length_set bs _ _

theorem foldl_setBit_length (l : List Nat) (pos : Nat → Nat) (bs : List Nat) :
    (l.foldl (fun b i => setBit b (pos i)) bs).length = bs.length := by
  induction l generalizing bs with
  | nil => rfl
  | cons x xs ih => rw [List.foldl_cons, ih, setBit_length]

theorem getBit_foldl_setBit_mono (l : List Nat) (pos : Nat → Nat) (bs : List Nat)
    (p : Nat) (hp : getBit bs p = true) :
    getBit (l.foldl (fun b i => setBit b (pos i)) bs) p = true := by
  induction l generalizing bs with
  | nil => exact hp
  | cons x xs ih => exact ih _ (getBit_setBit_mono _ _ _ hp)

theorem getBit_foldl_setBit_mem (l : List Nat) (pos : Nat → Nat) (bs : List Nat)
    (i : Nat) (hi : i ∈ l) (hrange : pos i / 8 < bs.length) :
    getBit (l.foldl (fun b j => setBit b (pos j)) bs) (pos i) = true := by
  induction l generalizing bs with
  | nil => cases hi
  | cons x xs ih =>
    rcases List.mem_cons.mp hi with rfl | hi
    · exact getBit_foldl_setBit_mono xs pos _ _ (getBit_setBit_self bs (pos i) hrange)
    · refine ih _ hi ?_
      rw [setBit_length]
      exact hrange

-- ───────────────────────────────────────────────────────────────────
-- SSTable: bloom-filter add/mayContain lemmas
-- ───────────────────────────────────────────────────────────────────

theorem bloomAdd_numBits (bf : BloomFilter) (k : Str) :
    (bf.add k).numBits = bf.numBits := rfl

theorem bloomAdd_numHashes (bf : BloomFilter) (k : Str) :
    (bf.add k).numHashes = bf.numHashes := rfl

theorem bloomAdd_bits_length (bf : BloomFilter) (k : Str) :
    (bf.add k).bits.length = bf.bits.length :=
  foldl_setBit_length _ _ _

theorem bloomAdd_getBit_mono (bf : BloomFilter) (k : Str) (p : Nat)
    (hp : getBit bf.bits p = true) : getBit (bf.add k).bits p = true :=
  getBit_foldl_setBit_mono _ _ _ _ hp

theorem mod_numBits_div8_lt (bf : BloomFilter) (x : Nat)
    (hnb : bf.numBits = 8 * bf.bits.length) (hpos : 0 < bf.numBits) :
    x % bf.numBits / 8 < bf.bits.length := by
  have h1 : x % bf.numBits < bf.numBits := Nat.mod_lt _ hpos
  omega

theorem bloomAdd_mayContain (bf : BloomFilter) (k : Str)
    (hnb : bf.numBits = 8 * bf.bits.length) (hpos : 0 < bf.numBits) :
    (bf.add k).mayContain k = true := by
  rw [BloomFilter.mayContain, List.all_eq_true]
  intro i hi
  rw [bloomAdd_numBits]
  exact getBit_foldl_setBit_mem _ _ _ _ (by rw [bloomAdd_numHashes] at hi; exact hi)
    (mod_numBits_div8_lt bf _ hnb hpos)

theorem bloomAdd_mayContain_mono (bf : BloomFilter) (k knew : Str)
    (h : bf.mayContain k = true) : (bf.add knew).mayContain k = true := by
  rw [BloomFilter.mayContain, List.all_eq_true] at h ⊢
  intro i hi
  rw [bloomAdd_numBits]
  refine bloomAdd_getBit_mono bf knew _ (h i ?_)
  rw [bloomAdd_numHashes] at hi
  exact hi

theorem bloomFoldAll_numBits (l : List KV) (bf : BloomFilter) :
    (l.foldl (fun b kv => b.add kv.key) bf).numBits = bf.numBits := by
  induction l generalizing bf with
  | nil => rfl
  | cons e es ih => rw [List.foldl_cons, ih, bloomAdd_numBits]

theorem bloomFoldAll_numHashes (l : List KV) (bf : BloomFilter) :
    (l.foldl (fun b kv => b.add kv.key) bf).numHashes = bf.numHashes := by
  induction l generalizing bf with
  | nil => rfl
  | cons e es ih => rw [List.foldl_cons, ih, bloomAdd_numHashes]

theorem bloomFoldAll_bits_length (l : List KV) (bf : BloomFilter) :
    (l.foldl (fun b kv => b.add kv.key) bf).bits.length = bf.bits.length := by
  induction l generalizing bf with
  | nil => rfl
  | cons e es ih => rw [List.foldl_cons, ih, bloomAdd_bits_length]

theorem bloomFoldAll_mayContain_mono (l : List KV) (bf : BloomFilter) (k : Str)
    (h : bf.mayContain k = true) :
    (l.foldl (fun b kv => b.add kv.key) bf).mayContain k = true := by
  induction l generalizing bf with
  | nil => exact h
  | cons e es ih => exact ih _ (bloomAdd_mayContain_mono bf k e.key h)

theorem bloomFoldAll_mayContain (l : List KV) (bf : BloomFilter) (kv : KV)
    (hmem : kv ∈ l) (hnb : bf.numBits = 8 * bf.bits.length) (hpos : 0 < bf.numBits) :
    (l.foldl (fun b e => b.add e.key) bf).mayContain kv.key = true := by
  induction l generalizing bf with
  | nil => cases hmem
  | cons e es ih =>
    rcases List.mem_cons.mp hmem with rfl | hmem
    · exact bloomFoldAll_mayContain_mono es _ _ (bloomAdd_mayContain bf kv.key hnb hpos)
    · refine ih _ hmem ?_ ?_
      · rw [bloomAdd_numBits, bloomAdd_bits_length]
        exact hnb
      · rw [bloomAdd_numBits]
        exact hpos

-- ───────────────────────────────────────────────────────────────────
-- SSTable: footer, bloom and index round-trip lemmas
-- ───────────────────────────────────────────────────────────────────

theorem footerBytes_length (f : SSTFooter) : (footerBytes f).length = 48 := by
  simp only [footerBytes, List.length_append, le64_length]

theorem footerBytes_fields (f : SSTFooter)
    (h1 : f.indexHandle.offset < 2 ^ 64) (h2 : f.indexHandle.size < 2 ^ 64)
    (h3 : f.metaHandle.offset < 2 ^ 64) (h4 : f.metaHandle.size < 2 ^ 64) :
    readLE 8 (footerBytes f) = f.indexHandle.offset ∧
    readLE 8 ((footerBytes f).drop 8) = f.indexHandle.size ∧
    readLE 8 ((footerBytes f).drop 16) = f.metaHandle.offset ∧
    readLE 8 ((footerBytes f).drop 24) = f.metaHandle.size ∧
    readLE 8 ((footerBytes f).drop 40) = kSSTMagic := by
  have hmagic : kSSTMagic < 2 ^ 64 := by norm_num [kSSTMagic]
  refine ⟨?_, ?_, ?_, ?_, ?_⟩
  · simp only [footerBytes, List.append_assoc]
    exact readLE_le64 _ _ h1
  · simp only [footerBytes, List.append_assoc]
    rw [List.drop_left' (le64_length _)]
    exact readLE_le64 _ _ h2
  · simp only [footerBytes, List.append_assoc]
    rw [show (16 : Nat) = 8 + 8 from rfl, ← List.drop_drop,
      List.drop_left' (le64_length _), List.drop_left' (le64_length _)]
    exact readLE_le64 _ _ h3
  · simp only [footerBytes, List.append_assoc]
    rw [show (24 : Nat) = 8 + 8 + 8 from rfl, ← List.drop_drop, ← List.drop_drop,
      List.drop_left' (le64_length _), List.drop_left' (le64_length _),
      List.drop_left' (le64_length _)]
    exact readLE_le64 _ _ h4
  · simp only [footerBytes, List.append_assoc]
    rw [show (40 : Nat) = 8 + 8 + 8 + 8 + 8 from rfl, ← List.drop_drop,
      ← List.drop_drop, ← List.drop_drop, ← List.drop_drop,
      List.drop_left' (le64_length _), List.drop_left' (le64_length _),
      List.drop_left' (le64_length _), List.drop_left' (le64_length _),
      List.drop_left' (le64_length _)]
    have := readLE_le64 kSSTMagic [] hmagic
    rwa [List.append_nil] at this

theorem bloomDeserialize_serialize (bf : BloomFilter)
    (hh : bf.numHashes < 2 ^ 32) (hl : bf.bits.length < 2 ^ 32)
    (hnb : bf.numBits = bf.bits.length * 8) :
    bloomDeserialize bf.serialize = bf := by
  obtain ⟨bits, nb, nh⟩ := bf
  simp only at hh hl hnb
  have hD : BloomFilter.serialize ⟨bits, nb, nh⟩ =
      le32 nh ++ (le32 bits.length ++ bits) := by
    simp only [BloomFilter.serialize, List.append_assoc]
  have h4 : (le32 nh ++ (le32 bits.length ++ bits)).drop 4 =
      le32 bits.length ++ bits := List.drop_left' (le32_length _)
  have hlen4 : readLE 4 ((le32 nh ++ (le32 bits.length ++ bits)).drop 4) =
      bits.length := by
    rw [h4]
    exact readLE_le32 _ _ hl
  have h8 : (le32 nh ++ (le32 bits.length ++ bits)).drop 8 = bits := by
    rw [show (8 : Nat) = 4 + 4 from rfl, ← List.drop_drop, h4,
      List.drop_left' (le32_length _)]
  rw [hD, bloomDeserialize, BloomFilter.mk.injEq]
  refine ⟨?_, ?_, ?_⟩
  · rw [h8, hlen4, List.take_length]
  · rw [hlen4]
    exact hnb.symm
  · exact readLE_le32 _ _ hh

theorem decodeIndexGo_encode (ies : List (Str × BlockHandle))
    (acc : List (Str × BlockHandle))
    (hk : ∀ e ∈ ies, e.1.length < 2 ^ 32)
    (ho : ∀ e ∈ ies, e.2.offset < 2 ^ 64)
    (hs : ∀ e ∈ ies, e.2.size < 2 ^ 64) :
    decodeIndexGo ((ies.map (fun e => encodeIndexEntry e.1 e.2)).flatten) ies.length
      acc = ies.foldl (fun a e => assocSet a e.1 e.2) acc := by
  induction ies generalizing acc with
  | nil => rfl
  | cons e rest ih =>
    have hk1 : e.1.length < 2 ^ 32 := hk e (List.mem_cons_self _ _)
    have ho1 : e.2.offset < 2 ^ 64 := ho e (List.mem_cons_self _ _)
    have hs1 : e.2.size < 2 ^ 64 := hs e (List.mem_cons_self _ _)
    have hD : ((e :: rest).map (fun x => encodeIndexEntry x.1 x.2)).flatten =
        le32 e.1.length ++ (e.1 ++ (le64 e.2.offset ++ (le64 e.2.size ++
          ((rest.map (fun x => encodeIndexEntry x.1 x.2)).flatten)))) := by
      simp only [List.map_cons, List.flatten_cons, encodeIndexEntry,
        List.append_assoc]
    have hklen : readLE 4 (((e :: rest).map
        (fun x => encodeIndexEntry x.1 x.2)).flatten) = e.1.length := by
      rw [hD]
      exact readLE_le32 _ _ hk1
    have hkey : ((((e :: rest).map (fun x => encodeIndexEntry x.1 x.2)).flatten).drop
        4).take e.1.length = e.1 := by
      rw [hD, List.drop_left' (le32_length _), List.take_left' rfl]
    have hoff : readLE 8 ((((e :: rest).map
        (fun x => encodeIndexEntry x.1 x.2)).flatten).drop (4 + e.1.length)) =
        e.2.offset := by
      rw [← List.drop_drop, hD, List.drop_left' (le32_length _),
        List.drop_left' rfl]
      exact readLE_le64 _ _ ho1
    have hsz : readLE 8 ((((e :: rest).map
        (fun x => encodeIndexEntry x.1 x.2)).flatten).drop (12 + e.1.length)) =
        e.2.size := by
      rw [show 12 + e.1.length = 4 + e.1.length + 8 by omega, ← List.drop_drop,
        ← List.drop_drop, hD, List.drop_left' (le32_length _),
        List.drop_left' rfl, List.drop_left' (le64_length _)]
      exact readLE_le64 _ _ hs1
    have hrest : (((e :: rest).map
        (fun x => encodeIndexEntry x.1 x.2)).flatten).drop (20 + e.1.length) =
        (rest.map (fun x => encodeIndexEntry x.1 x.2)).flatten := by
      rw [show 20 + e.1.length = 4 + e.1.length + 8 + 8 by omega, ← List.drop_drop,
        ← List.drop_drop, ← List.drop_drop, hD, List.drop_left' (le32_length _),
        List.drop_left' rfl, List.drop_left' (le64_length _),
        List.drop_left' (le64_length _)]
    rw [List.length_cons, decodeIndexGo, hklen, hkey, hoff, hsz, hrest,
      show (⟨e.2.offset, e.2.size⟩ : BlockHandle) = e.2 from rfl, List.foldl_cons]
    exact ih _ (fun x hx => hk x (List.mem_cons_of_mem _ hx))
      (fun x hx => ho x (List.mem_cons_of_mem _ hx))
      (fun x hx => hs x (List.mem_cons_of_mem _ hx))

theorem decodeIndex_encodeIndex (ies : List (Str × BlockHandle))
    (hk : ∀ e ∈ ies, e.1.length < 2 ^ 32)
    (ho : ∀ e ∈ ies, e.2.offset < 2 ^ 64)
    (hs : ∀ e ∈ ies, e.2.size < 2 ^ 64)
    (hn : ies.length < 2 ^ 32) :
    decodeIndex (encodeIndex ies) =
      ies.foldl (fun a e => assocSet a e.1 e.2) [] := by
  rw [decodeIndex, encodeIndex, readLE_le32 _ _ hn,
    List.drop_left' (le32_length _)]
  exact decodeIndexGo_encode ies [] hk ho hs

-- ───────────────────────────────────────────────────────────────────
-- SSTable: whole-file layout lemmas
-- ───────────────────────────────────────────────────────────────────

theorem buildRecords_length (l : List KV) (off : Nat) :
    (buildRecords l off).length = l.length := by
  have h := congrArg List.length (buildRecords_fst l off)
  rwa [List.length_map] at h

theorem indexEntries_fst (l : List KV) (off : Nat) :
    ((buildRecords l off).map (fun p => (p.1.key, p.2))).map Prod.fst =
      l.map KV.key := by
  rw [List.map_map,
    show (Prod.fst ∘ fun p : KV × BlockHandle => (p.1.key, p.2)) =
      KV.key ∘ Prod.fst from rfl,
    ← List.map_map, buildRecords_fst]

theorem sstFinish_eq (entries : List KV) :
    sstFinish entries =
      recordsBytes (buildRecords (sortKV entries) 0) ++
      (encodeIndex ((buildRecords (sortKV entries) 0).map (fun p => (p.1.key, p.2))) ++
      (((entries.foldl (fun b kv => b.add kv.key) bloomDefault1024).serialize) ++
      footerBytes
        ⟨⟨(recordsBytes (buildRecords (sortKV entries) 0)).length,
          (encodeIndex ((buildRecords (sortKV entries) 0).map
            (fun p => (p.1.key, p.2)))).length⟩,
         ⟨(recordsBytes (buildRecords (sortKV entries) 0)).length +
          (encodeIndex ((buildRecords (sortKV entries) 0).map
            (fun p => (p.1.key, p.2)))).length,
          (((entries.foldl (fun b kv => b.add kv.key)
            bloomDefault1024).serialize)).length⟩,
         entries.length⟩)) := by
  rw [sstFinish]
  simp only [List.append_assoc]

theorem sstFinish_length (entries : List KV) :
    (sstFinish entries).length =
      (recordsBytes (buildRecords (sortKV entries) 0)).length +
      (encodeIndex ((buildRecords (sortKV entries) 0).map
        (fun p => (p.1.key, p.2)))).length +
      (((entries.foldl (fun b kv => b.add kv.key)
        bloomDefault1024).serialize)).length + 48 := by
  rw [sstFinish_eq]
  simp only [List.length_append, footerBytes_length]
  omega

theorem sstLoad_sstFinish (entries : List KV)
    (hfile : (sstFinish entries).length < 2 ^ 64) :
    sstLoad (sstFinish entries) =
      ⟨true,
       bloomDeserialize ((entries.foldl (fun b kv => b.add kv.key)
         bloomDefault1024).serialize),
       decodeIndex (encodeIndex ((buildRecords (sortKV entries) 0).map
         (fun p => (p.1.key, p.2)))),
       sstFinish entries⟩ := by
  have hfin := sstFinish_eq entries
  have hlen := sstFinish_length entries
  have h48 : ¬ (sstFinish entries).length < 48 := by omega
  have hsub : (sstFinish entries).length - 48 =
      (recordsBytes (buildRecords (sortKV entries) 0)).length +
      (encodeIndex ((buildRecords (sortKV entries) 0).map
        (fun p => (p.1.key, p.2)))).length +
      (((entries.foldl (fun b kv => b.add kv.key)
        bloomDefault1024).serialize)).length := by omega
  have hdropF : (sstFinish entries).drop ((sstFinish entries).length - 48) =
      footerBytes
        ⟨⟨(recordsBytes (buildRecords (sortKV entries) 0)).length,
          (encodeIndex ((buildRecords (sortKV entries) 0).map
            (fun p => (p.1.key, p.2)))).length⟩,
         ⟨(recordsBytes (buildRecords (sortKV entries) 0)).length +
          (encodeIndex ((buildRecords (sortKV entries) 0).map
            (fun p => (p.1.key, p.2)))).length,
          (((entries.foldl (fun b kv => b.add kv.key)
            bloomDefault1024).serialize)).length⟩,
         entries.length⟩ := by
    rw [hsub, ← List.drop_drop, ← List.drop_drop, hfin,
      List.drop_left' rfl, List.drop_left' rfl, List.drop_left' rfl]
  have hfields := footerBytes_fields
    ⟨⟨(recordsBytes (buildRecords (sortKV entries) 0)).length,
      (encodeIndex ((buildRecords (sortKV entries) 0).map
        (fun p => (p.1.key, p.2)))).length⟩,
     ⟨(recordsBytes (buildRecords (sortKV entries) 0)).length +
      (encodeIndex ((buildRecords (sortKV entries) 0).map
        (fun p => (p.1.key, p.2)))).length,
      (((entries.foldl (fun b kv => b.add kv.key)
        bloomDefault1024).serialize)).length⟩,
     entries.length⟩
    (by simp only; omega) (by simp only; omega) (by simp only; omega)
    (by simp only; omega)
  obtain ⟨hfld0, hfld8, hfld16, hfld24, hfld40⟩ := hfields
  simp only at hfld0 hfld8 hfld16 hfld24
  have hidxslice : ((sstFinish entries).drop
      (recordsBytes (buildRecords (sortKV entries) 0)).length).take
      (encodeIndex ((buildRecords (sortKV entries) 0).map
        (fun p => (p.1.key, p.2)))).length =
      encodeIndex ((buildRecords (sortKV entries) 0).map
        (fun p => (p.1.key, p.2))) := by
    rw [hfin, List.drop_left' rfl, List.take_left' rfl]
  have hmetaslice : ((sstFinish entries).drop
      ((recordsBytes (buildRecords (sortKV entries) 0)).length +
       (encodeIndex ((buildRecords (sortKV entries) 0).map
         (fun p => (p.1.key, p.2)))).length)).take
      (((entries.foldl (fun b kv => b.add kv.key)
        bloomDefault1024).serialize)).length =
      ((entries.foldl (fun b kv => b.add kv.key) bloomDefault1024).serialize) := by
    rw [← List.drop_drop, hfin, List.drop_left' rfl, List.drop_left' rfl,
      List.take_left' rfl]
  rw [sstLoad, if_neg h48, hdropF, hfld40, hfld16, hfld24, hfld0, hfld8,
    hmetaslice, hidxslice, if_neg (fun hmm => hmm rfl)]

/-- Claim C7: SSTable round-trip. For every collection of key/value
pairs with pairwise-distinct keys added to a writer (with sizes
representable in the on-disk fields: key, value and entry counts below
2^32, total file below 2^64), `Finish` produces a file on which a
reader returns the stored value for every added key and a miss for any
key never added. -/
theorem C7_sstable_roundtrip (entries : List KV)
    (hnodup : (entries.map KV.key).Nodup)
    (hk : ∀ kv ∈ entries, kv.key.length < 2 ^ 32)
    (hv : ∀ kv ∈ entries, kv.value.length < 2 ^ 32)
    (hcount : entries.length < 2 ^ 32)
    (hfile : (sstFinish entries).length < 2 ^ 64) :
    (∀ kv ∈ entries, sstGet (sstLoad (sstFinish entries)) kv.key = some kv.value) ∧
    (∀ k, k ∉ entries.map KV.key → sstGet (sstLoad (sstFinish entries)) k = none) := by
  have hperm : List.Perm (sortKV entries) entries := sortKV_perm entries
  have hpermk : List.Perm ((sortKV entries).map KV.key) (entries.map KV.key) :=
    hperm.map KV.key
  have hnodupS : ((sortKV entries).map KV.key).Nodup := hpermk.nodup_iff.mpr hnodup
  have hiesfst := indexEntries_fst (sortKV entries) 0
  have hnodupIes : (((buildRecords (sortKV entries) 0).map
      (fun p => (p.1.key, p.2))).map Prod.fst).Nodup := by
    rw [hiesfst]
    exact hnodupS
  have hfold_nb : (entries.foldl (fun b kv => b.add kv.key)
      bloomDefault1024).numBits = 10240 :=
    (bloomFoldAll_numBits entries bloomDefault1024).trans rfl
  have hfold_nh : (entries.foldl (fun b kv => b.add kv.key)
      bloomDefault1024).numHashes = 6 :=
    (bloomFoldAll_numHashes entries bloomDefault1024).trans rfl
  have hfold_len : (entries.foldl (fun b kv => b.add kv.key)
      bloomDefault1024).bits.length = 1280 :=
    (bloomFoldAll_bits_length entries bloomDefault1024).trans
      (List.length_replicate 1280 0)
  have hbloomdes : bloomDeserialize ((entries.foldl (fun b kv => b.add kv.key)
      bloomDefault1024).serialize) =
      entries.foldl (fun b kv => b.add kv.key) bloomDefault1024 :=
    bloomDeserialize_serialize _ (by rw [hfold_nh]; norm_num)
      (by rw [hfold_len]; norm_num) (by rw [hfold_nb, hfold_len])
  have hRmem : ∀ p ∈ buildRecords (sortKV entries) 0, p.1 ∈ sortKV entries := by
    intro p hp
    have h1 := List.mem_map_of_mem Prod.fst hp
    rw [buildRecords_fst] at h1
    exact h1
  have hlenF := sstFinish_length entries
  have hrecs64 : (recordsBytes (buildRecords (sortKV entries) 0)).length <
      2 ^ 64 := by omega
  have hbounds : ∀ p ∈ buildRecords (sortKV entries) 0,
      p.2.offset < 2 ^ 64 ∧ p.2.size < 2 ^ 64 := by
    intro p hp
    obtain ⟨hsize, pre, post, heq, hoff⟩ :=
      buildRecords_mem_decomp (sortKV entries) 0 p.1 p.2 hp
    have hlens := congrArg List.length heq
    simp only [List.length_append] at hlens
    constructor
    · omega
    · rw [hsize]
      omega
  have hidxdec : decodeIndex (encodeIndex ((buildRecords (sortKV entries) 0).map
      (fun p => (p.1.key, p.2)))) =
      ((buildRecords (sortKV entries) 0).map (fun p => (p.1.key, p.2))).foldl
        (fun a e => assocSet a e.1 e.2) [] := by
    apply decodeIndex_encodeIndex
    · intro e he
      obtain ⟨p, hp, rfl⟩ := List.mem_map.mp he
      exact hk p.1 (hperm.mem_iff.mp (hRmem p hp))
    · intro e he
      obtain ⟨p, hp, rfl⟩ := List.mem_map.mp he
      exact (hbounds p hp).1
    · intro e he
      obtain ⟨p, hp, rfl⟩ := List.mem_map.mp he
      exact (hbounds p hp).2
    · rw [List.length_map, buildRecords_length, hperm.length_eq]
      exact hcount
  have hload := sstLoad_sstFinish entries hfile
  obtain ⟨rest, hrest⟩ : ∃ rest, sstFinish entries =
      recordsBytes (buildRecords (sortKV entries) 0) ++ rest :=
    ⟨_, sstFinish_eq entries⟩
  constructor
  · intro kv hmem
    have hmemS : kv ∈ sortKV entries := hperm.mem_iff.mpr hmem
    obtain ⟨bh, hbhmem⟩ := buildRecords_mem_of_mem (sortKV entries) 0 kv hmemS
    obtain ⟨hsize, pre, post, heq, hoff⟩ :=
      buildRecords_mem_decomp (sortKV entries) 0 kv bh hbhmem
    have hiesmem : (kv.key, bh) ∈ (buildRecords (sortKV entries) 0).map
        (fun p => (p.1.key, p.2)) :=
      List.mem_map_of_mem (fun p => (p.1.key, p.2)) hbhmem
    have hfind : assocFind (((buildRecords (sortKV entries) 0).map
        (fun p => (p.1.key, p.2))).foldl (fun a e => assocSet a e.1 e.2) [])
        kv.key = some bh :=
      assocFind_foldl_mem _ _ _ _ hnodupIes hiesmem
    have hmay : (entries.foldl (fun b kv => b.add kv.key)
        bloomDefault1024).mayContain kv.key = true :=
      bloomFoldAll_mayContain entries bloomDefault1024 kv hmem
        (by norm_num [bloomDefault1024]) (by norm_num [bloomDefault1024])
    have hfiledec : sstFinish entries =
        pre ++ (encodeKV kv.key kv.value ++ (post ++ rest)) := by
      rw [hrest, heq, List.append_assoc, List.append_assoc]
    have hbh : bh = ⟨pre.length, (encodeKV kv.key kv.value).length⟩ := by
      have ho : bh.offset = pre.length := by omega
      calc bh = ⟨bh.offset, bh.size⟩ := rfl
        _ = ⟨pre.length, (encodeKV kv.key kv.value).length⟩ := by rw [ho, hsize]
    rw [hload, hbloomdes, hidxdec]
    simp only [sstGet]
    rw [if_neg (fun hcon => hcon trivial), if_neg (fun hcon => hcon hmay), hfind]
    show readKVAt (sstFinish entries) bh kv.key = some kv.value
    rw [hbh, hfiledec]
    exact readKVAt_spec pre (post ++ rest) kv.key kv.value (hk kv hmem) (hv kv hmem)
  · intro k hknot
    rw [hload, hbloomdes, hidxdec]
    simp only [sstGet]
    rw [if_neg (fun hcon => hcon trivial)]
    by_cases hmc : (entries.foldl (fun b kv => b.add kv.key)
        bloomDefault1024).mayContain k = true
    · rw [if_neg (fun hcon => hcon hmc)]
      have hnone : assocFind (((buildRecords (sortKV entries) 0).map
          (fun p => (p.1.key, p.2))).foldl (fun a e => assocSet a e.1 e.2) [])
          k = none := by
        rw [assocFind_foldl_not_mem]
        · rfl
        · intro e he hek
          apply hknot
          have h1 : e.1 ∈ ((buildRecords (sortKV entries) 0).map
              (fun p => (p.1.key, p.2))).map Prod.fst :=
            List.mem_map_of_mem Prod.fst he
          rw [hiesfst] at h1
          rw [← hek]
          exact hpermk.mem_iff.mp h1
      rw [hnone]
    · rw [if_pos hmc]

/-- Witness for C7: two entries round-trip; a third key misses. -/
theorem C7_sstable_roundtrip_witness :
    ((([⟨ascii "a", ascii "1"⟩, ⟨ascii "b", ascii "2"⟩] : List KV).map
        KV.key).Nodup ∧
     sstGet (sstLoad (sstFinish [⟨ascii "a", ascii "1"⟩, ⟨ascii "b", ascii "2"⟩]))
       (ascii "a") = some (ascii "1") ∧
     sstGet (sstLoad (sstFinish [⟨ascii "a", ascii "1"⟩, ⟨ascii "b", ascii "2"⟩]))
       (ascii "c") = none) :=
  ⟨by decide,
   (C7_sstable_roundtrip [⟨ascii "a", ascii "1"⟩, ⟨ascii "b", ascii "2"⟩]
      (by decide) (by decide) (by decide) (by decide) (by decide)).1
     ⟨ascii "a", ascii "1"⟩ (by decide),
   (C7_sstable_roundtrip [⟨ascii "a", ascii "1"⟩, ⟨ascii "b", ascii "2"⟩]
      (by decide) (by decide) (by decide) (by decide) (by decide)).2
     (ascii "c") (by decide)⟩

/-- Claim C1 (refuted — code bug): LSM read consistency fails across a
flush.  Before the flush, `remove` wins: `load` on the fresh engine
after `store(k, v); remove(k)` is `Miss`.  But `ForceCompaction`
freezes the memtable and `DoFlush` hands only `kValue` entries to the
`SSTableWriter`, so the tombstone is dropped and the shadowed put is
written out; the subsequent `load(k)` serves `Hit(v)` from the
compacted SSTable instead of `Miss`. -/
theorem C1_lsm_tombstone_dropped :
    lsmLoad (lsmRemove (lsmStore lsmInit (ascii "k") (ascii "v")) (ascii "k"))
      (ascii "k") = LoadResult.Miss ∧
    lsmLoad (lsmForceCompaction (lsmRemove (lsmStore lsmInit (ascii "k") (ascii "v"))
      (ascii "k"))) (ascii "k") = LoadResult.Hit (ascii "v") ∧
    lsmLoad (lsmForceCompaction (lsmRemove (lsmStore lsmInit (ascii "k") (ascii "v"))
      (ascii "k"))) (ascii "k") ≠ LoadResult.Miss :=
  ⟨by decide, by decide, by decide⟩

end DCS
